import Mathlib

/-!
# A shallow embedding of `src/dual_graph.rs` (crate `worldgen`)

This file embeds the planar dual-graph construction pipeline of
`src/dual_graph.rs` and proves properties of it.

Modelling conventions:

* `f64`/`f32` arithmetic is modelled by exact rational arithmetic (`ℚ`).
  The Rust code casts `f64` coordinates to `f32` when storing them in graph
  nodes and accumulates region centroids in `f32`; in the exact model both
  readings of a coordinate are the same rational number.
* The PRNG (`rand::Rng`, sampling `f64` from `Standard`, i.e. uniformly
  from `[0,1)`) is modelled as a stream `rng : Nat → ℚ` of draws; the
  current stream position is threaded explicitly.  Theorems that need the
  `[0,1)` range of `Standard` carry it as a hypothesis.
* Loops whose termination is not structural (the `while contains` resampling
  loop of `gen_points`, the halfedge ring walk of `gen_dual_graph`) take a
  `fuel` argument and return `none` when the fuel runs out, so `none` covers
  both non-termination and Rust panics (out-of-bounds indexing, failed
  `assert!`/`expect`).  A run of the Rust code terminates without panicking
  exactly when the model returns `some` for every sufficiently large fuel.
* `petgraph::graph::UnGraph` is modelled as a node list plus an edge list;
  `add_node`/`add_edge` append and return the fresh index, matching
  petgraph's index assignment.  `find_edge_undirected` returns the first
  edge (in index order) joining the two endpoints in either orientation;
  in this code at most one such edge ever exists, so the choice of scan
  order is immaterial.
* The external tessellator `voronoi::voronoi` is not part of this
  repository; the pipeline is parametrised over a function
  `tess : List Pt → ℚ → DCEL` standing for it.
* The generic node payloads (`value : T`, with `T: Default`) are never read
  by the embedded code and are omitted from the node structures.
-/

namespace Worldgen

/-- A 2-D coordinate: models `voronoi::Point` (two `f64`s) and
`nalgebra::Point2<f32>` with exact rational coordinates. -/
structure Pt where
  x : ℚ
  y : ℚ
deriving DecidableEq, Repr, Inhabited

instance : Add Pt := ⟨fun p q => ⟨p.x + q.x, p.y + q.y⟩⟩

theorem Pt.add_def (p q : Pt) : p + q = ⟨p.x + q.x, p.y + q.y⟩ := rfl

/-- Componentwise division by a (casted) natural number, as in
`pos / num_edges as f32` and the centroid division of `poly_centroids`.
For `n = 0` the `f64` code would produce `NaN`; `ℚ` yields `x / 0 = 0`,
and the zero-divisor situation is tracked separately (`faceVertexCounts`). -/
def Pt.divN (p : Pt) (n : Nat) : Pt := ⟨p.x / n, p.y / n⟩

/-- A Voronoi vertex of the DCEL (`voronoi::dcel::Vertex`). -/
structure Vertex where
  coordinates : Pt
deriving DecidableEq, Repr, Inhabited

/-- A DCEL halfedge.  The Rust struct also carries a `twin` field, which the
embedded code never reads; it is omitted. -/
structure Halfedge where
  origin : Nat
  next : Nat
  face : Nat
  alive : Bool
deriving DecidableEq, Repr, Inhabited

/-- A DCEL face: carries the halfedge index its boundary walk starts from. -/
structure Face where
  outer_component : Nat
deriving DecidableEq, Repr, Inhabited

/-- The DCEL produced by the external tessellator (`voronoi::DCEL`).
Per the documented contract, `faces` is one face per input site plus a final
unbounded face. -/
structure DCEL where
  vertices : List Vertex
  halfedges : List Halfedge
  faces : List Face
deriving DecidableEq, Repr, Inhabited

/-! ## `poly_centroids` -/

/-- The accumulation loop of `poly_centroids`: for every `alive` halfedge,
add the coordinates of its origin vertex to its face's running sum and bump
that face's halfedge count.  Rust indexes `vertices[edge.origin]` and
`face_centroids[edge.face]` unchecked; an out-of-range index panics,
modelled as `none`. -/
def centroidSums : List Halfedge → List Vertex → List Pt → List Nat → Option (List Pt × List Nat)
  | [], _, sums, counts => some (sums, counts)
  | e :: es, vs, sums, counts =>
    if e.alive then do
      let v ← vs[e.origin]?
      let s ← sums[e.face]?
      let c ← counts[e.face]?
      centroidSums es vs (sums.set e.face (s + v.coordinates)) (counts.set e.face (c + 1))
    else centroidSums es vs sums counts

/-- The per-face live-halfedge counts (`num_face_vertices` in the source):
exactly the divisors `poly_centroids` divides each face's coordinate sum by. -/
def faceVertexCounts (d : DCEL) : Option (List Nat) :=
  (centroidSums d.halfedges d.vertices
      (List.replicate d.faces.length ⟨0, 0⟩) (List.replicate d.faces.length 0)).map Prod.snd

/-- `poly_centroids`: per-face vertex centroids.  The division by the face's
halfedge count is performed unconditionally for every face; the final
`remove(len - 1)` drops the last (unbounded) face and panics (`none`) on an
empty face list. -/
def polyCentroids (d : DCEL) : Option (List Pt) := do
  let (sums, counts) ← centroidSums d.halfedges d.vertices
      (List.replicate d.faces.length ⟨0, 0⟩) (List.replicate d.faces.length 0)
  let cs := (sums.zip counts).map fun sc => sc.1.divN sc.2
  if cs.isEmpty then none else some cs.dropLast

/-! ## `gen_points` -/

/-- The dedup tolerance `epsilon = 0.001` of `contains` and `gen_points`. -/
def eps : ℚ := 1 / 1000

/-- `contains`: is `point` within `epsilon` of some element of `points` on
both axes? -/
def contains (point : Pt) (points : List Pt) : Bool :=
  points.any fun v =>
    decide (|point.x - v.x| < eps) && decide (|point.y - v.y| < eps)

/-- One raw sample: two consecutive PRNG draws scaled by the bounds
(`x * bounds.x`, `y * bounds.y`). -/
def samplePoint (bounds : Pt) (rng : Nat → ℚ) (k : Nat) : Pt :=
  ⟨rng k * bounds.x, rng (k + 1) * bounds.y⟩

/-- The body of one iteration of the sampling `for` loop of `gen_points`:
draw a point, then `while contains(point, points)` redraw it.  `fuel`
bounds the number of draws; the Rust loop has no retry budget, so `none`
models exceeding `fuel` draws (in particular, `none` for every fuel means
the loop never terminates).  Returns the accepted point and the advanced
stream position. -/
def resampleLoop (bounds : Pt) (rng : Nat → ℚ) (points : List Pt) :
    Nat → Nat → Option (Pt × Nat)
  | 0, _ => none
  | fuel + 1, k =>
    let point := samplePoint bounds rng k
    if contains point points then resampleLoop bounds rng points fuel (k + 2)
    else some (point, k + 2)

/-- The sampling `for` loop of `gen_points`: accept `count` points, each
pushed onto the end of the accumulator. -/
def genPointsLoop (bounds : Pt) (rng : Nat → ℚ) :
    Nat → Nat → Nat → List Pt → Option (List Pt)
  | 0, _, _, points => some points
  | count + 1, fuel, k, points => do
    let (point, k2) ← resampleLoop bounds rng points fuel k
    genPointsLoop bounds rng count fuel k2 (points ++ [point])

/-- Insertion step of the ascending-`y` sort. -/
def insertY (p : Pt) : List Pt → List Pt
  | [] => [p]
  | q :: qs => if p.y ≤ q.y then p :: q :: qs else q :: insertY p qs

/-- `points.sort_unstable_by_key(|p| p.y)`: sort ascending by `y`
(insertion sort; any sort realises the unstable-sort contract). -/
def sortByY : List Pt → List Pt
  | [] => []
  | p :: ps => insertY p (sortByY ps)

/-- The final fix-up of `gen_points`: if there are at least two points and
the largest `y` exceeds the second largest by less than `epsilon`, raise the
last point's `y` to `biggest + epsilon` (its `x` is unchanged). -/
def nudgeLast (points : List Pt) : List Pt :=
  if 2 ≤ points.length then
    let last := points.length - 1
    let secondlast := points.length - 2
    let biggest := (points.getD last default).y
    let maybe_also_biggest := (points.getD secondlast default).y
    if biggest - maybe_also_biggest < eps then
      points.set last ⟨(points.getD last default).x, biggest + eps⟩
    else points
  else points

/-- `gen_points(count, bounds, rng)`: sample `count` points with
deduplication, sort ascending by `y`, and nudge the top. -/
def genPoints (count : Nat) (bounds : Pt) (rng : Nat → ℚ) (fuel : Nat) :
    Option (List Pt) :=
  (genPointsLoop bounds rng count fuel 0 []).map fun points =>
    nudgeLast (sortByY points)

/-! ## Graphs (`petgraph::graph::UnGraph`) -/

/-- An undirected petgraph edge: endpoints as stored (`source`, `target`)
plus its weight. -/
structure GEdge (E : Type) where
  source : Nat
  target : Nat
  weight : E
deriving DecidableEq, Repr, Inhabited

/-- An undirected petgraph graph: nodes and edges in index order;
`add_node` / `add_edge` append. -/
structure Graph (N E : Type) where
  nodes : List N
  edges : List (GEdge E)
deriving DecidableEq, Repr, Inhabited

/-- `BorderNode`: a Voronoi vertex in the border graph.  (The generic
payload `value : T` is omitted; the embedded code never reads it.) -/
structure BorderNode where
  regions : List Nat
  pos : Pt
deriving DecidableEq, Repr, Inhabited

/-- `BorderEdge`: a polygon edge in the border graph. -/
structure BorderEdge where
  region_edge : Option Nat
  regions : List Nat
deriving DecidableEq, Repr, Inhabited

/-- `RegionNode`: a Voronoi cell in the region graph. -/
structure RegionNode where
  borders : List Nat
  pos : Pt
deriving DecidableEq, Repr, Inhabited

/-- `RegionEdge`: an adjacency between two regions. -/
structure RegionEdge where
  border_edge : Option Nat
  borders : List Nat
deriving DecidableEq, Repr, Inhabited

abbrev RegionGraph := Graph RegionNode RegionEdge
abbrev BorderGraph := Graph BorderNode BorderEdge

/-- Does the (undirected) endpoint pair `(s, t)` match the pair `(a, b)`? -/
def pairMemP (s t a b : Nat) : Bool :=
  (s == a && t == b) || (s == b && t == a)

/-- Does edge `e` join `a` and `b` (in either orientation)? -/
def pairMem {E : Type} (e : GEdge E) (a b : Nat) : Bool :=
  pairMemP e.source e.target a b

/-- `find_edge_undirected(a, b)`: index of the first edge joining `a` and
`b` in either orientation. -/
def findEdgeUndirected {E : Type} : List (GEdge E) → Nat → Nat → Option Nat
  | [], _, _ => none
  | e :: es, a, b =>
    if pairMem e a b then some 0 else (findEdgeUndirected es a b).map (· + 1)

/-- In-place update of the element at index `i` (used to model mutation of
a node or edge weight through an index; such indices are always in range in
the embedded code). -/
def modifyIdx {α : Type} : List α → Nat → (α → α) → List α
  | [], _, _ => []
  | a :: as, 0, f => f a :: as
  | a :: as, i + 1, f => a :: modifyIdx as i f

/-! ## `get_or_insert_border_node` / `get_or_insert_region_node` -/

/-- Lookup in a `HashMap<usize, NodeIndex>` modelled as an association
list (insertions prepend; keys are never inserted twice). -/
def lookupIdx (map : List (Nat × Nat)) (k : Nat) : Option Nat :=
  (map.find? fun kv => kv.1 == k).map Prod.snd

/-- `get_or_insert_border_node`: reuse the mapped node for DCEL vertex
`idx`, or add a fresh node carrying the vertex's coordinates (as `f32`) and
an empty `regions` list.  Rust indexes `diagram.vertices[idx]` unchecked;
out of range panics (`none`). -/
def getOrInsertBorderNode (map : List (Nat × Nat)) (graph : BorderGraph)
    (d : DCEL) (idx : Nat) : Option (List (Nat × Nat) × BorderGraph × Nat) :=
  match lookupIdx map idx with
  | some border_node => some (map, graph, border_node)
  | none =>
    match d.vertices[idx]? with
    | none => none
    | some v =>
      let border_node := graph.nodes.length
      some ((idx, border_node) :: map,
        { graph with nodes := graph.nodes ++ [⟨[], v.coordinates⟩] },
        border_node)

/-- `get_or_insert_region_node`: reuse the mapped node for face `idx`, or
add a fresh node with no borders and the given position. -/
def getOrInsertRegionNode (map : List (Nat × Nat)) (graph : RegionGraph)
    (pos : Pt) (idx : Nat) : List (Nat × Nat) × RegionGraph × Nat :=
  match lookupIdx map idx with
  | some region_node => (map, graph, region_node)
  | none =>
    let region_node := graph.nodes.length
    ((idx, region_node) :: map,
      { graph with nodes := graph.nodes ++ [⟨[], pos⟩] },
      region_node)

/-! ## `gen_dual_graph`, pass A: the halfedge ring walk -/

/-- `border_graph[edge_idx].regions.push(region_node_idx)`. -/
def pushEdgeRegion (graph : BorderGraph) (e r : Nat) : BorderGraph :=
  { graph with
    edges := modifyIdx graph.edges e fun ed =>
      { ed with weight := { ed.weight with regions := ed.weight.regions ++ [r] } } }

/-- The find-or-insert border-edge step: reuse the undirected edge between
the two border nodes, or add a fresh one (endpoints stored as
`(border_idx, next_idx)`, i.e. current origin first). -/
def findOrInsertBorderEdge (graph : BorderGraph) (a b : Nat) : BorderGraph × Nat :=
  match findEdgeUndirected graph.edges a b with
  | some e => (graph, e)
  | none => ({ graph with edges := graph.edges ++ [⟨a, b, ⟨none, []⟩⟩] }, graph.edges.length)

/-- The mutable state of one face walk: the vertex→border-node map, the
border graph, the region's accumulated `borders` list, the coordinate sum
`pos`, and the step count `num_edges`. -/
structure WalkState where
  bmap : List (Nat × Nat)
  bg : BorderGraph
  borders : List Nat
  pos : Pt
  num : Nat
deriving Repr

/-- The `loop { ... }` of pass A, walking one face's halfedge ring from
`outer_component` (`oc`): advance `curr` along `next`, intern border nodes
for the current and previous origins, push the current one onto the
region's `borders`, find-or-insert the border edge between them and push
the region onto it, accumulate the current origin's coordinates, and stop
when the walk returns to `oc`.  `fuel` bounds the number of steps; a ring
that never returns to `oc` exhausts it (`none`), and unchecked indexing
panics (`none`). -/
def walkFace (d : DCEL) (region_node_idx oc : Nat) :
    Nat → Nat → WalkState → Option WalkState
  | 0, _, _ => none
  | fuel + 1, curr, st => do
    let prev := curr
    let heP ← d.halfedges[prev]?
    let curr2 := heP.next
    let heC ← d.halfedges[curr2]?
    let (bmap, bg, border_idx) ← getOrInsertBorderNode st.bmap st.bg d heC.origin
    let borders2 := st.borders ++ [border_idx]
    let (bmap2, bg2, next_idx) ← getOrInsertBorderNode bmap bg d heP.origin
    let (bg3, edge_idx) := findOrInsertBorderEdge bg2 border_idx next_idx
    let bg4 := pushEdgeRegion bg3 edge_idx region_node_idx
    let v ← d.vertices[heC.origin]?
    let st2 : WalkState := ⟨bmap2, bg4, borders2, st.pos + v.coordinates, st.num + 1⟩
    if curr2 = oc then some st2 else walkFace d region_node_idx oc fuel curr2 st2

/-- The state threaded through pass A: the face→region map, the region
graph, the vertex→border map, and the border graph. -/
structure BuildState where
  rmap : List (Nat × Nat)
  rg : RegionGraph
  bmap : List (Nat × Nat)
  bg : BorderGraph
deriving Repr

/-- Pass A, one face: intern the region node for face index `i`, walk the
face's ring, then record the accumulated `borders` and the centroid
`pos / num_edges` on the region node. -/
def processFace (d : DCEL) (fuel : Nat) (st : BuildState) (i : Nat)
    (face : Face) : Option BuildState := do
  let (rmap, rg, region_node_idx) := getOrInsertRegionNode st.rmap st.rg ⟨0, 0⟩ i
  let w ← walkFace d region_node_idx face.outer_component fuel
      face.outer_component ⟨st.bmap, st.bg, [], ⟨0, 0⟩, 0⟩
  let rg2 := { rg with
    nodes := modifyIdx rg.nodes region_node_idx fun n =>
      ⟨n.borders ++ w.borders, w.pos.divN w.num⟩ }
  some ⟨rmap, rg2, w.bmap, w.bg⟩

/-- Pass A over a face list, with the running face index `i`. -/
def passAList (d : DCEL) (fuel : Nat) :
    List Face → Nat → BuildState → Option BuildState
  | [], _, st => some st
  | f :: fs, i, st => do
    let st2 ← processFace d fuel st i f
    passAList d fuel fs (i + 1) st2

/-- Pass A of `gen_dual_graph`: process every face except the last
(unbounded) one, in face order.  (`faces.len() - 1` is `usize` arithmetic;
the embedded `Nat` subtraction matches Rust's release behaviour, where an
empty face list makes the `take` empty.) -/
def passA (d : DCEL) (fuel : Nat) : Option (RegionGraph × BorderGraph) :=
  (passAList d fuel (d.faces.take (d.faces.length - 1)) 0
      ⟨[], ⟨[], []⟩, [], ⟨[], []⟩⟩).map fun st => (st.rg, st.bg)

/-! ## Passes B and C -/

/-- Pass B, one border edge (at index `i`): if it separates two regions,
assert the list has exactly two entries (`none` on failure) and add the
region edge — with its back-reference `border_edge = Some(i)` and the
border edge's endpoints as `borders` — unless the two regions are already
joined. -/
def passBStep (rg : RegionGraph) (e : GEdge BorderEdge) (i : Nat) :
    Option RegionGraph :=
  match e.weight.regions with
  | [region_a, region_b] =>
    some (match findEdgeUndirected rg.edges region_a region_b with
      | some _ => rg
      | none =>
        { rg with edges := rg.edges ++
            [⟨region_a, region_b, ⟨some i, [e.source, e.target]⟩⟩] })
  | regions => if 1 < regions.length then none else some rg

/-- Pass B over the border-edge list. -/
def passBList : RegionGraph → List (GEdge BorderEdge) → Nat → Option RegionGraph
  | rg, [], _ => some rg
  | rg, e :: es, i => do
    let rg2 ← passBStep rg e i
    passBList rg2 es (i + 1)

/-- `border_edge.region_edge.replace(edge.id())`. -/
def setRegionEdge (graph : BorderGraph) (e r : Nat) : BorderGraph :=
  { graph with
    edges := modifyIdx graph.edges e fun ed =>
      { ed with weight := { ed.weight with region_edge := some r } } }

/-- Pass C, one region edge (at index `j`): assert it stores exactly two
border endpoints, locate the border edge joining them (`expect`: `none` if
missing), and point that border edge back at this region edge. -/
def passCStep (bg : BorderGraph) (e : GEdge RegionEdge) (j : Nat) :
    Option BorderGraph :=
  match e.weight.borders with
  | [border_a, border_b] =>
    (findEdgeUndirected bg.edges border_a border_b).map fun bi => setRegionEdge bg bi j
  | _ => none

/-- Pass C over the region-edge list. -/
def passCList : BorderGraph → List (GEdge RegionEdge) → Nat → Option BorderGraph
  | bg, [], _ => some bg
  | bg, e :: es, j => do
    let bg2 ← passCStep bg e j
    passCList bg2 es (j + 1)

/-- The dual-graph assembly of `gen_dual_graph`, starting from a DCEL:
pass A (regions, border nodes, border edges), pass B (region adjacency),
pass C (border-edge back-links). -/
def genDualGraphCore (d : DCEL) (fuel : Nat) :
    Option (RegionGraph × BorderGraph) := do
  let (rg, bg) ← passA d fuel
  let rg2 ← passBList rg bg.edges 0
  let bg2 ← passCList bg rg2.edges 0
  some (rg2, bg2)

/-! ## `gen_voronoi` and the full pipeline -/

/-- The Lloyd loop of `gen_voronoi`: tessellate, and until the iteration
count reaches `L`, replace the points by the face centroids and repeat.
The tessellator is the opaque collaborator `tess points dims.x`
(`voronoi(&points, dims.x)`). -/
def lloydLoop (tess : List Pt → ℚ → DCEL) (dims : Pt) :
    Nat → List Pt → Option DCEL
  | 0, points => some (tess points dims.x)
  | l + 1, points => do
    let cs ← polyCentroids (tess points dims.x)
    lloydLoop tess dims l cs

/-- `gen_voronoi(dims, num_points, num_lloyd_iterations, rng)`. -/
def genVoronoi (tess : List Pt → ℚ → DCEL) (dims : Pt)
    (num_points L : Nat) (rng : Nat → ℚ) (fuel : Nat) : Option DCEL := do
  let points ← genPoints num_points dims rng fuel
  lloydLoop tess dims L points

/-- `gen_dual_graph(dims, num_points, num_lloyd_iterations, rng)`: the full
pipeline, parametrised over the external tessellator. -/
def genDualGraph (tess : List Pt → ℚ → DCEL) (dims : Pt)
    (num_points L : Nat) (rng : Nat → ℚ) (fuel : Nat) :
    Option (RegionGraph × BorderGraph) := do
  let d ← genVoronoi tess dims num_points L rng fuel
  genDualGraphCore d fuel

/-! ## Specification-side notions -/

/-- Two points differ by at least `epsilon` in at least one coordinate:
the separation the deduplication of `gen_points` is meant to establish. -/
def sep (p q : Pt) : Prop := eps ≤ |p.x - q.x| ∨ eps ≤ |p.y - q.y|

/-- Sum of the positions of the border nodes listed in `bs` (out-of-range
indices contribute the default node; they never occur on built graphs). -/
def posSum (bg : BorderGraph) (bs : List Nat) : Pt :=
  bs.foldl (fun acc b => acc + (bg.nodes.getD b default).pos) ⟨0, 0⟩

/-! ## Invariants of the dual-graph build -/

/-- Edges `e1` and `e2` join different unordered endpoint pairs. -/
def distinctPair {E1 E2 : Type} (e1 : GEdge E1) (e2 : GEdge E2) : Prop :=
  pairMemP e2.source e2.target e1.source e1.target = false

/-- No two edges of the graph join the same unordered endpoint pair. -/
def EdgesDistinct (g : BorderGraph) : Prop :=
  List.Pairwise distinctPair g.edges

/-- Every border node's `regions` list is empty (the build never pushes
into it). -/
def NodesRegionsEmpty (g : BorderGraph) : Prop :=
  ∀ n ∈ g.nodes, n.regions = []

/-- Every entry of the DCEL-vertex → border-node map points at a node
carrying that vertex's coordinates and an empty `regions` list. -/
def MapConsistent (d : DCEL) (map : List (Nat × Nat)) (g : BorderGraph) : Prop :=
  ∀ kv ∈ map, ∃ v, d.vertices[kv.1]? = some v ∧ g.nodes[kv.2]? = some ⟨[], v.coordinates⟩

/-- `g2`'s node list extends `g`'s: every existing node is unchanged. -/
def NodesExtend (g g2 : BorderGraph) : Prop :=
  ∀ (i : Nat) (n : BorderNode), g.nodes[i]? = some n → g2.nodes[i]? = some n

/-- A finished region node: a non-empty `borders` list of valid border-node
indices whose position is the mean of those nodes' positions. -/
def RegionOK (bg : BorderGraph) (r : RegionNode) : Prop :=
  r.borders ≠ [] ∧ (∀ b ∈ r.borders, ∃ n, bg.nodes[b]? = some n) ∧
    r.pos = (posSum bg r.borders).divN r.borders.length

/-- The walk-state invariant: distinct border edges, untouched node
`regions` lists, a consistent vertex map, and accumulators that record the
positions of the borders collected so far. -/
def WInv (d : DCEL) (st : WalkState) : Prop :=
  EdgesDistinct st.bg ∧ NodesRegionsEmpty st.bg ∧ MapConsistent d st.bmap st.bg ∧
    (∀ b ∈ st.borders, ∃ n, st.bg.nodes[b]? = some n) ∧
    st.pos = posSum st.bg st.borders ∧ st.num = st.borders.length

/-- The pass-A invariant after `i` faces: `i` region nodes, no region
edges yet, all face keys `≥ i` unmapped, the border-graph invariants, and
every finished region node is `RegionOK`. -/
def AInv (d : DCEL) (st : BuildState) (i : Nat) : Prop :=
  st.rg.nodes.length = i ∧ st.rg.edges = [] ∧
    (∀ j, i ≤ j → lookupIdx st.rmap j = none) ∧
    EdgesDistinct st.bg ∧ NodesRegionsEmpty st.bg ∧ MapConsistent d st.bmap st.bg ∧
    (∀ r ∈ st.rg.nodes, RegionOK st.bg r)

/-- A region edge `e` was created by pass B from border edge `bi`: it
back-references `bi`, stores `bi`'s endpoints as `borders`, and `bi`'s
`regions` list is exactly `e`'s endpoints. -/
def edgeFrom (bgEdges : List (GEdge BorderEdge)) (bi : Nat)
    (e : GEdge RegionEdge) : Prop :=
  e.weight.border_edge = some bi ∧ ∃ be, bgEdges[bi]? = some be ∧
    e.weight.borders = [be.source, be.target] ∧
    be.weight.regions = [e.source, e.target]

/-- The `border_edge` references of `e1` precede those of `e2` (pass B
processes border edges in increasing index order). -/
def beLt (e1 e2 : GEdge RegionEdge) : Prop :=
  ∀ b1 b2, e1.weight.border_edge = some b1 → e2.weight.border_edge = some b2 → b1 < b2

/-- The endpoint pair of an edge. -/
def edgeEnds {E : Type} (e : GEdge E) : Nat × Nat := (e.source, e.target)

/-- The endpoint/`regions` data of an edge (everything pass C leaves
untouched). -/
def edgeERD (e : GEdge BorderEdge) : Nat × Nat × List Nat :=
  (e.source, e.target, e.weight.regions)

/-- `bgj` agrees with `bg0` except possibly in `region_edge` fields:
same nodes, and edgewise-equal endpoint/`regions` data. -/
def SameButRE (bg0 bgj : BorderGraph) : Prop :=
  bgj.nodes = bg0.nodes ∧ bgj.edges.length = bg0.edges.length ∧
    ∀ k : Nat, (bgj.edges[k]?).map edgeERD = (bg0.edges[k]?).map edgeERD

/-! ## Concrete inputs used in witnesses and counterexamples -/

/-- Modelled from the spec: the output of the external tessellator
`voronoi::voronoi` (not part of this repository) on an empty site list.
Per the documented DCEL contract, `faces` is one face per input site plus
one final unbounded face, so zero sites yield exactly the unbounded face
and no vertices or halfedges. -/
def emptySiteDCEL : DCEL := ⟨[], [], [⟨0⟩]⟩

/-- A DCEL with one bounded triangular face `v0 v1 v2` plus the unbounded
face: `h0 : v0→v1`, `h1 : v1→v2`, `h2 : v2→v0`, all alive on face 0. -/
def dTri : DCEL :=
  { vertices := [⟨⟨0, 0⟩⟩, ⟨⟨1, 0⟩⟩, ⟨⟨0, 1⟩⟩]
    halfedges := [⟨0, 1, 0, true⟩, ⟨1, 2, 0, true⟩, ⟨2, 0, 0, true⟩]
    faces := [⟨0⟩, ⟨0⟩] }

/-- A DCEL with two bounded triangles sharing the segment `v0–v2`
(face 0: `v0 v1 v2`, face 1: `v0 v2 v3`) plus the unbounded face. -/
def dTwoTri : DCEL :=
  { vertices := [⟨⟨0, 0⟩⟩, ⟨⟨1, 0⟩⟩, ⟨⟨1, 1⟩⟩, ⟨⟨0, 1⟩⟩]
    halfedges :=
      [⟨0, 1, 0, true⟩, ⟨1, 2, 0, true⟩, ⟨2, 0, 0, true⟩,
       ⟨0, 4, 1, true⟩, ⟨2, 5, 1, true⟩, ⟨3, 3, 1, true⟩]
    faces := [⟨0⟩, ⟨3⟩, ⟨0⟩] }

/-- A DCEL with two faces and no halfedges at all: its bounded face 0 has
zero live halfedges. -/
def dTwoFace : DCEL := ⟨[], [], [⟨0⟩, ⟨0⟩]⟩

/-- A DCEL with a single face carrying one live halfedge. -/
def dOneFace : DCEL := ⟨[⟨⟨0, 0⟩⟩], [⟨0, 0, 0, true⟩], [⟨0⟩]⟩

/-- The region graph `gen_dual_graph` builds from `dTri`. -/
def rgTriLit : RegionGraph :=
  { nodes := [⟨[0, 2, 1], ⟨1/3, 1/3⟩⟩], edges := [] }

/-- The border graph `gen_dual_graph` builds from `dTri`. -/
def bgTriLit : BorderGraph :=
  { nodes := [⟨[], ⟨1, 0⟩⟩, ⟨[], ⟨0, 0⟩⟩, ⟨[], ⟨0, 1⟩⟩]
    edges := [⟨0, 1, ⟨none, [0]⟩⟩, ⟨2, 0, ⟨none, [0]⟩⟩, ⟨1, 2, ⟨none, [0]⟩⟩] }

/-- The region graph `gen_dual_graph` builds from `dTwoTri`. -/
def rgTwoTriLit : RegionGraph :=
  { nodes := [⟨[0, 2, 1], ⟨2/3, 1/3⟩⟩, ⟨[2, 3, 1], ⟨1/3, 2/3⟩⟩]
    edges := [⟨0, 1, ⟨some 2, [1, 2]⟩⟩] }

/-- The border graph `gen_dual_graph` builds from `dTwoTri`. -/
def bgTwoTriLit : BorderGraph :=
  { nodes := [⟨[], ⟨1, 0⟩⟩, ⟨[], ⟨0, 0⟩⟩, ⟨[], ⟨1, 1⟩⟩, ⟨[], ⟨0, 1⟩⟩]
    edges :=
      [⟨0, 1, ⟨none, [0]⟩⟩, ⟨2, 0, ⟨none, [0]⟩⟩, ⟨1, 2, ⟨some 0, [0, 1]⟩⟩,
       ⟨3, 2, ⟨none, [1]⟩⟩, ⟨1, 3, ⟨none, [1]⟩⟩] }

/-- A PRNG stream that always draws `0`. -/
def zeroRng : Nat → ℚ := fun _ => 0

/-- A PRNG stream that always draws `1/2`. -/
def halfRng : Nat → ℚ := fun _ => 1 / 2

/-- Four draws giving the points `(1/10, 0.9995)` and `(1/2, 0.9996)`
(then `0`); all draws lie in `[0, 1)`. -/
def nudgeRng : Nat → ℚ := fun n => [(1 : ℚ)/10, 1999/2000, 1/2, 2499/2500].getD n 0

/-- Four draws giving the points `(0, 0)` and `(1/2, 1/2)` (then `0`);
all draws lie in `[0, 1)`. -/
def sepRng : Nat → ℚ := fun n => [(0 : ℚ), 0, 1/2, 1/2].getD n 0

/-! # Theorems -/

/-! ## C4: `count = 0, L = 0` returns two empty graphs -/

/-- C4: with `count = 0` and `L = 0`, `gen_dual_graph` returns a pair of
empty graphs (no nodes, no edges) and reports no failure, for any
tessellator that honours the documented DCEL contract on the empty site
list (exactly one, unbounded, face). -/
theorem genDualGraph_count_zero_empty (tess : List Pt → ℚ → DCEL) (dims : Pt)
    (rng : Nat → ℚ) (fuel : Nat) (htess : tess [] dims.x = emptySiteDCEL) :
    genDualGraph tess dims 0 0 rng fuel = some (⟨[], []⟩, ⟨[], []⟩) := by
  simp [genDualGraph, genVoronoi, genPoints, genPointsLoop, sortByY, nudgeLast,
    lloydLoop, htess, emptySiteDCEL, genDualGraphCore, passA, passAList,
    passBList, passCList, Option.bind]

/-- Witness for C4 at a concrete tessellator, domain, rng and fuel. -/
theorem genDualGraph_count_zero_empty_witness :
    genDualGraph (fun _ _ => emptySiteDCEL) ⟨1, 1⟩ 0 0 zeroRng 0 =
      some (⟨[], []⟩, ⟨[], []⟩) :=
  genDualGraph_count_zero_empty (fun _ _ => emptySiteDCEL) ⟨1, 1⟩ zeroRng 0 rfl

/-! ## C5: there is no `InvalidDomain` fail-fast -/

/-- C5 counterexample: with `count = 1 > 0` and the non-positive domain
`bounds = (0, 0)`, the pipeline does not fail at entry: point sampling runs
and succeeds, returning the point `(0, 0)` (the code defines no
`InvalidDomain` error and performs no domain validation). -/
theorem genPoints_zero_domain_samples :
    genPoints 1 ⟨0, 0⟩ zeroRng 1 = some [⟨0, 0⟩] := by
  with_unfolding_all rfl

/-- C5 (amended): the code performs no domain validation whatsoever — for
every rng and every fuel budget `≥ 1`, a call with `count = 1 > 0` and the
non-positive domain `bounds = (0, 0)` proceeds into sampling and returns
the single point `(0, 0)` instead of an `InvalidDomain` failure. -/
theorem genPoints_no_domain_validation (rng : Nat → ℚ) (fuel : Nat)
    (hfuel : 1 ≤ fuel) : genPoints 1 ⟨0, 0⟩ rng fuel = some [⟨0, 0⟩] := by
  obtain ⟨f, rfl⟩ : ∃ f, fuel = f + 1 := ⟨fuel - 1, by omega⟩
  simp [genPoints, genPointsLoop, resampleLoop, samplePoint, contains,
    sortByY, insertY, nudgeLast]

/-- Witness for C5's amended theorem at a concrete rng and fuel. -/
theorem genPoints_no_domain_validation_witness :
    1 ≤ 1 ∧ genPoints 1 ⟨0, 0⟩ halfRng 1 = some [⟨0, 0⟩] :=
  ⟨le_refl 1, genPoints_no_domain_validation halfRng 1 (le_refl 1)⟩

/-! ## C6: the dedup loop has no retry budget -/

/-- On a constant stream every redraw collides with the already-accepted
point `(1/2, 1/2)`, so the resampling loop never exits, whatever the
fuel. -/
theorem halfRng_resample_none (fuel k : Nat) :
    resampleLoop ⟨1, 1⟩ halfRng [⟨1/2, 1/2⟩] fuel k = none := by
  induction fuel generalizing k with
  | zero => rfl
  | succ f ih =>
    have hc : contains (samplePoint ⟨1, 1⟩ halfRng k) [⟨1/2, 1/2⟩] = true := by
      norm_num [contains, samplePoint, halfRng, eps]
    show (if contains (samplePoint ⟨1, 1⟩ halfRng k) [⟨1/2, 1/2⟩] = true then
        resampleLoop ⟨1, 1⟩ halfRng [⟨1/2, 1/2⟩] f (k + 2)
      else some (samplePoint ⟨1, 1⟩ halfRng k, k + 2)) = none
    rw [if_pos hc]
    exact ih (k + 2)

set_option maxRecDepth 8000 in
/-- C6 counterexample: sampling two points in `(1, 1)` from a constant
stream is still resampling after a fuel budget of 200 draws — far beyond
any fixed 64-retry budget — and no `PointSetExhausted` error exists or is
reported (the code has no such error; it simply loops). -/
theorem genPoints_dedup_budget_exceeded :
    genPoints 2 ⟨1, 1⟩ halfRng 200 = none := by
  with_unfolding_all rfl

/-- C6 (amended): the dedup loop has no retry budget and no
`PointSetExhausted` error: on persistent collision it resamples
unboundedly (for a constant rng and `count = 2` the sampler never
terminates, i.e. returns `none` for every fuel). -/
theorem genPoints_dedup_unbounded (fuel : Nat) :
    genPoints 2 ⟨1, 1⟩ halfRng fuel = none := by
  cases fuel with
  | zero => rfl
  | succ f =>
    have h1 : resampleLoop ⟨1, 1⟩ halfRng [] (f + 1) 0 = some (⟨1/2, 1/2⟩, 2) := by
      show (if contains (samplePoint ⟨1, 1⟩ halfRng 0) [] = true then
          resampleLoop ⟨1, 1⟩ halfRng [] f 2
        else some (samplePoint ⟨1, 1⟩ halfRng 0, 2)) = some (⟨1/2, 1/2⟩, 2)
      rw [if_neg (by simp [contains])]
      simp [samplePoint, halfRng]
    have h2 : genPointsLoop ⟨1, 1⟩ halfRng 2 (f + 1) 0 [] = none := by
      show (resampleLoop ⟨1, 1⟩ halfRng [] (f + 1) 0).bind
          (fun pk => genPointsLoop ⟨1, 1⟩ halfRng 1 (f + 1) pk.2 ([] ++ [pk.1])) = none
      rw [h1]
      show (resampleLoop ⟨1, 1⟩ halfRng [⟨1/2, 1/2⟩] (f + 1) 2).bind
          (fun pk => genPointsLoop ⟨1, 1⟩ halfRng 0 (f + 1) pk.2 ([⟨1/2, 1/2⟩] ++ [pk.1])) = none
      rw [halfRng_resample_none]
      rfl
    show (genPointsLoop ⟨1, 1⟩ halfRng 2 (f + 1) 0 []).map
        (fun points => nudgeLast (sortByY points)) = none
    rw [h2]
    rfl

/-! ## C7: `poly_centroids` does not skip zero-count faces -/

/-- C7 counterexample: on a DCEL whose bounded face 0 has zero live
halfedges, `poly_centroids` does not skip the face: the divisor list is
`[0, 0]` and a centroid (the `f64` value `0/0`, i.e. `NaN`; `0` in the
exact model) is returned for the bounded face. -/
theorem polyCentroids_zero_count_not_skipped :
    faceVertexCounts dTwoFace = some [0, 0] ∧
      polyCentroids dTwoFace = some [⟨0, 0⟩] :=
  ⟨rfl, by with_unfolding_all rfl⟩

/-- The count list returned by the accumulation loop has the same length
as the one passed in. -/
theorem centroidSums_length : ∀ (es : List Halfedge) (vs : List Vertex)
    (sums : List Pt) (counts : List Nat) (s2 : List Pt) (c2 : List Nat),
    centroidSums es vs sums counts = some (s2, c2) → c2.length = counts.length := by
  intro es
  induction es with
  | nil =>
    intro vs sums counts s2 c2 h
    simp only [centroidSums, Option.some.injEq, Prod.mk.injEq] at h
    rw [← h.2]
  | cons e es ih =>
    intro vs sums counts s2 c2 h
    simp only [centroidSums] at h
    by_cases ha : e.alive = true
    · rw [if_pos ha] at h
      obtain ⟨v, hv, h⟩ := Option.bind_eq_some.mp h
      obtain ⟨s, hs, h⟩ := Option.bind_eq_some.mp h
      obtain ⟨cf, hcf, h⟩ := Option.bind_eq_some.mp h
      have := ih _ _ _ _ _ h
      rwa [List.length_set] at this
    · rw [if_neg ha] at h
      exact ih _ _ _ _ _ h

/-- Count entries never decrease through the accumulation loop. -/
theorem centroidSums_mono : ∀ (es : List Halfedge) (vs : List Vertex)
    (sums : List Pt) (counts : List Nat) (s2 : List Pt) (c2 : List Nat),
    centroidSums es vs sums counts = some (s2, c2) →
    ∀ (i c : Nat), counts[i]? = some c → ∃ c2i, c2[i]? = some c2i ∧ c ≤ c2i := by
  intro es
  induction es with
  | nil =>
    intro vs sums counts s2 c2 h i c hi
    simp only [centroidSums, Option.some.injEq, Prod.mk.injEq] at h
    exact ⟨c, by rw [← h.2]; exact hi, le_refl c⟩
  | cons e es ih =>
    intro vs sums counts s2 c2 h i c hi
    simp only [centroidSums] at h
    by_cases ha : e.alive = true
    · rw [if_pos ha] at h
      obtain ⟨v, hv, h⟩ := Option.bind_eq_some.mp h
      obtain ⟨s, hs, h⟩ := Option.bind_eq_some.mp h
      obtain ⟨cf, hcf, h⟩ := Option.bind_eq_some.mp h
      by_cases hif : e.face = i
      · subst hif
        have hcc : c = cf := by rw [hi] at hcf; exact Option.some_inj.mp hcf
        have hset : (counts.set e.face (cf + 1))[e.face]? = some (cf + 1) :=
          List.getElem?_set_self (List.getElem?_eq_some_iff.mp hcf).1
        obtain ⟨c2i, h1, h2⟩ := ih _ _ _ _ _ h e.face (cf + 1) hset
        exact ⟨c2i, h1, by omega⟩
      · have hset : (counts.set e.face (cf + 1))[i]? = some c := by
          rw [List.getElem?_set_ne hif]; exact hi
        exact ih _ _ _ _ _ h i c hset
    · rw [if_neg ha] at h
      exact ih _ _ _ _ _ h i c hi

/-- Every live halfedge whose face index is processed makes that face's
final count positive. -/
theorem centroidSums_pos : ∀ (es : List Halfedge) (vs : List Vertex)
    (sums : List Pt) (counts : List Nat) (s2 : List Pt) (c2 : List Nat),
    centroidSums es vs sums counts = some (s2, c2) →
    ∀ he ∈ es, he.alive = true → ∃ c, c2[he.face]? = some c ∧ 0 < c := by
  intro es
  induction es with
  | nil =>
    intro vs sums counts s2 c2 h he hmem halive
    exact absurd hmem (by simp)
  | cons e es ih =>
    intro vs sums counts s2 c2 h he hmem halive
    simp only [centroidSums] at h
    rcases List.mem_cons.mp hmem with rfl | hmem2
    · rw [if_pos halive] at h
      obtain ⟨v, hv, h⟩ := Option.bind_eq_some.mp h
      obtain ⟨s, hs, h⟩ := Option.bind_eq_some.mp h
      obtain ⟨cf, hcf, h⟩ := Option.bind_eq_some.mp h
      have hset : (counts.set he.face (cf + 1))[he.face]? = some (cf + 1) :=
        List.getElem?_set_self (List.getElem?_eq_some_iff.mp hcf).1
      obtain ⟨c2i, h1, h2⟩ := centroidSums_mono _ _ _ _ _ _ h he.face (cf + 1) hset
      exact ⟨c2i, h1, by omega⟩
    · by_cases ha : e.alive = true
      · rw [if_pos ha] at h
        obtain ⟨v, hv, h⟩ := Option.bind_eq_some.mp h
        obtain ⟨s, hs, h⟩ := Option.bind_eq_some.mp h
        obtain ⟨cf, hcf, h⟩ := Option.bind_eq_some.mp h
        exact ih _ _ _ _ _ h he hmem2 halive
      · rw [if_neg ha] at h
        exact ih _ _ _ _ _ h he hmem2 halive

/-- C7 (amended): `poly_centroids` divides each face's coordinate sum by
its live-halfedge count unconditionally, with no skip; division by zero is
absent only when every face has at least one live halfedge, in which case
every divisor is positive. -/
theorem polyCentroids_divisors_pos (d : DCEL) (counts : List Nat)
    (hc : faceVertexCounts d = some counts)
    (hlive : ∀ i : Nat, i < d.faces.length →
      ∃ he ∈ d.halfedges, he.alive = true ∧ he.face = i) :
    ∀ c ∈ counts, 0 < c := by
  simp only [faceVertexCounts, Option.map_eq_some'] at hc
  obtain ⟨⟨s2, c2⟩, hrun, hsnd⟩ := hc
  cases hsnd
  intro c hmem
  obtain ⟨i, hi⟩ := List.getElem?_of_mem hmem
  have hilen : i < c2.length := (List.getElem?_eq_some_iff.mp hi).1
  have hlen : c2.length = d.faces.length := by
    have := centroidSums_length _ _ _ _ _ _ hrun
    rwa [List.length_replicate] at this
  obtain ⟨he, hhe, halive, hface⟩ := hlive i (hlen ▸ hilen)
  obtain ⟨c2i, hc2i, hpos⟩ := centroidSums_pos _ _ _ _ _ _ hrun he hhe halive
  rw [hface, hi] at hc2i
  cases hc2i
  exact hpos

/-- Witness for C7's amended theorem on a one-face DCEL with a live
halfedge. -/
theorem polyCentroids_divisors_pos_witness :
    faceVertexCounts dOneFace = some [1] ∧ 0 < 1 :=
  ⟨rfl, polyCentroids_divisors_pos dOneFace [1] rfl
    (fun i hi => ⟨⟨0, 0, 0, true⟩, by simp [dOneFace], rfl, by
      show 0 = i
      simp [dOneFace] at hi
      omega⟩) 1 (by simp)⟩

/-! ## Sampling: separation and range invariants (C8, C9) -/

/-- Separation is symmetric. -/
theorem sep_symm {p q : Pt} (h : sep p q) : sep q p := by
  unfold sep at h ⊢
  rwa [abs_sub_comm q.x p.x, abs_sub_comm q.y p.y]

/-- `contains` returns `false` exactly when the point is `sep`arated from
every list element. -/
theorem contains_eq_false_iff (p : Pt) (pts : List Pt) :
    contains p pts = false ↔ ∀ v ∈ pts, sep p v := by
  constructor
  · intro h v hvm
    by_contra hns
    unfold sep at hns
    push_neg at hns
    have ht : contains p pts = true := by
      unfold contains
      rw [List.any_eq_true]
      refine ⟨v, hvm, ?_⟩
      simp only [Bool.and_eq_true, decide_eq_true_eq]
      exact hns
    rw [h] at ht
    exact absurd ht (by simp)
  · intro h
    by_contra hne
    have ht : contains p pts = true := by
      cases hcp : contains p pts
      · exact absurd hcp hne
      · rfl
    unfold contains at ht
    rw [List.any_eq_true] at ht
    obtain ⟨v, hvm, hvb⟩ := ht
    simp only [Bool.and_eq_true, decide_eq_true_eq] at hvb
    rcases h v hvm with hs | hs
    · exact absurd hvb.1 (not_lt.mpr hs)
    · exact absurd hvb.2 (not_lt.mpr hs)

/-- A point accepted by the resampling loop is separated from every
already-accepted point, and is a raw sample. -/
theorem resampleLoop_spec (bounds : Pt) (rng : Nat → ℚ) (pts : List Pt) :
    ∀ (fuel k k2 : Nat) (p : Pt),
    resampleLoop bounds rng pts fuel k = some (p, k2) →
    (∀ v ∈ pts, sep p v) ∧ ∃ k0, p = samplePoint bounds rng k0 := by
  intro fuel
  induction fuel with
  | zero => intro k k2 p h; exact absurd h (by simp [resampleLoop])
  | succ f ih =>
    intro k k2 p h
    simp only [resampleLoop] at h
    by_cases hc : contains (samplePoint bounds rng k) pts = true
    · rw [if_pos hc] at h
      exact ih _ _ _ h
    · rw [if_neg hc] at h
      obtain ⟨rfl, rfl⟩ : samplePoint bounds rng k = p ∧ k + 2 = k2 := by
        simpa using h
      exact ⟨(contains_eq_false_iff _ _).mp (Bool.not_eq_true _ ▸ hc), k, rfl⟩

/-- The sampling loop preserves pairwise separation, adds exactly `count`
points, and only adds raw samples. -/
theorem genPointsLoop_spec (bounds : Pt) (rng : Nat → ℚ) :
    ∀ (count fuel k : Nat) (acc out : List Pt),
    genPointsLoop bounds rng count fuel k acc = some out →
    List.Pairwise sep acc →
    List.Pairwise sep out ∧ out.length = acc.length + count ∧
      (∀ p ∈ out, p ∈ acc ∨ ∃ k0, p = samplePoint bounds rng k0) := by
  intro count
  induction count with
  | zero =>
    intro fuel k acc out h hacc
    obtain rfl : acc = out := by simpa [genPointsLoop] using h
    exact ⟨hacc, rfl, fun p hp => Or.inl hp⟩
  | succ c ih =>
    intro fuel k acc out h hacc
    simp only [genPointsLoop] at h
    obtain ⟨⟨p, k2⟩, hr, h⟩ := Option.bind_eq_some.mp h
    obtain ⟨hsep, hsample⟩ := resampleLoop_spec bounds rng acc fuel k k2 p hr
    have hacc2 : List.Pairwise sep (acc ++ [p]) := by
      rw [List.pairwise_append]
      exact ⟨hacc, by simp, fun u hu v hv => by
        rcases List.mem_singleton.mp hv with rfl
        exact sep_symm (hsep u hu)⟩
    obtain ⟨h1, h2, h3⟩ := ih fuel k2 (acc ++ [p]) out h hacc2
    refine ⟨h1, by simp at h2; omega, fun q hq => ?_⟩
    rcases h3 q hq with hq2 | hq2
    · rcases List.mem_append.mp hq2 with hq3 | hq3
      · exact Or.inl hq3
      · rcases List.mem_singleton.mp hq3 with rfl
        exact Or.inr hsample
    · exact Or.inr hq2

/-- `insertY` inserts its point somewhere: the result is a permutation of
consing it. -/
theorem insertY_perm (p : Pt) (l : List Pt) : (insertY p l).Perm (p :: l) := by
  induction l with
  | nil => exact List.Perm.refl _
  | cons q qs ih =>
    unfold insertY
    by_cases h : p.y ≤ q.y
    · rw [if_pos h]
    · rw [if_neg h]
      exact (ih.cons q).trans (List.Perm.swap p q qs)

/-- The sort returns a permutation of its input. -/
theorem sortByY_perm (l : List Pt) : (sortByY l).Perm l := by
  induction l with
  | nil => exact List.Perm.refl _
  | cons p ps ih => exact (insertY_perm p (sortByY ps)).trans (ih.cons p)

/-- `insertY` preserves ascending-`y` sortedness. -/
theorem insertY_sorted (p : Pt) (l : List Pt)
    (h : List.Pairwise (fun a b : Pt => a.y ≤ b.y) l) :
    List.Pairwise (fun a b : Pt => a.y ≤ b.y) (insertY p l) := by
  induction l with
  | nil => simp [insertY]
  | cons q qs ih =>
    rw [List.pairwise_cons] at h
    obtain ⟨hq, hqs⟩ := h
    unfold insertY
    by_cases hle : p.y ≤ q.y
    · rw [if_pos hle]
      refine List.pairwise_cons.mpr ⟨?_, List.pairwise_cons.mpr ⟨hq, hqs⟩⟩
      intro b hb
      rcases List.mem_cons.mp hb with rfl | hb2
      · exact hle
      · exact le_trans hle (hq b hb2)
    · rw [if_neg hle]
      refine List.pairwise_cons.mpr ⟨?_, ih hqs⟩
      intro b hb
      have hb2 : b ∈ p :: qs := (insertY_perm p qs).mem_iff.mp hb
      rcases List.mem_cons.mp hb2 with rfl | hb3
      · exact le_of_not_le hle
      · exact hq b hb3

/-- The sort's output is ascending in `y`. -/
theorem sortByY_sorted (l : List Pt) :
    List.Pairwise (fun a b : Pt => a.y ≤ b.y) (sortByY l) := by
  induction l with
  | nil => simp [sortByY]
  | cons p ps ih => exact insertY_sorted p (sortByY ps) ih

/-- `getD` of the second-to-last element of `l ++ [a, b]`. -/
theorem getD_concat2_snd (l : List Pt) (a b d : Pt) :
    (l ++ [a, b]).getD l.length d = a := by
  induction l with
  | nil => rfl
  | cons x xs ih => simpa using ih

/-- `getD` of the last element of `l ++ [a, b]`. -/
theorem getD_concat2_last (l : List Pt) (a b d : Pt) :
    (l ++ [a, b]).getD (l.length + 1) d = b := by
  induction l with
  | nil => rfl
  | cons x xs ih => simpa using ih

/-- Setting the last element of `l ++ [a, b]`. -/
theorem set_concat2_last (l : List Pt) (a b q : Pt) :
    (l ++ [a, b]).set (l.length + 1) q = l ++ [a, q] := by
  induction l with
  | nil => rfl
  | cons x xs ih => simpa using ih

/-- `dropLast` of `l ++ [a, b]`. -/
theorem dropLast_concat2 (l : List Pt) (a b : Pt) :
    (l ++ [a, b]).dropLast = l ++ [a] := by
  rw [show l ++ [a, b] = (l ++ [a]) ++ [b] by simp]
  exact List.dropLast_concat

/-- What `nudgeLast` does on a list of length `≥ 2`, presented by its last
two elements. -/
theorem nudgeLast_concat2 (l : List Pt) (a b : Pt) :
    nudgeLast (l ++ [a, b]) =
      if b.y - a.y < eps then l ++ [a, ⟨b.x, b.y + eps⟩] else l ++ [a, b] := by
  have h1 : (l ++ [a, b]).length - 1 = l.length + 1 := by simp
  have h2 : (l ++ [a, b]).length - 2 = l.length := by simp
  simp only [nudgeLast, h1, h2]
  rw [if_pos (show 2 ≤ (l ++ [a, b]).length by simp)]
  rw [getD_concat2_last, getD_concat2_snd, set_concat2_last]

/-- `nudgeLast` leaves lists of length `< 2` alone. -/
theorem nudgeLast_small (pts : List Pt) (h : pts.length < 2) :
    nudgeLast pts = pts := by
  unfold nudgeLast
  rw [if_neg (by omega)]

/-- Every list of length `≥ 2` ends in two elements. -/
theorem exists_concat2 (pts : List Pt) (h : 2 ≤ pts.length) :
    ∃ l a b, pts = l ++ [a, b] := by
  rcases List.eq_nil_or_concat pts with rfl | ⟨l1, b, rfl⟩
  · exact absurd h (by simp)
  · rcases List.eq_nil_or_concat l1 with rfl | ⟨l2, a, rfl⟩
    · exact absurd h (by simp)
    · exact ⟨l2, a, b, by simp⟩

/-- The last-two decomposition is unique. -/
theorem concat2_inj {l1 l2 : List Pt} {a b c d : Pt}
    (h : l1 ++ [a, b] = l2 ++ [c, d]) : l1 = l2 ∧ a = c ∧ b = d := by
  obtain ⟨h1, h2⟩ := List.append_inj' h rfl
  injection h2 with ha h3
  injection h3 with hb h4
  exact ⟨h1, ha, hb⟩

/-- C8: every successful sampling run returns points that pairwise differ
by at least `epsilon` in some coordinate, and — after the ascending-`y`
sort and the final `y`-nudge — the two largest `y` values differ by at
least `epsilon`. -/
theorem genPoints_sep (count : Nat) (bounds : Pt) (rng : Nat → ℚ)
    (fuel : Nat) (pts : List Pt) (hx : 0 < bounds.x) (hy : 0 < bounds.y)
    (h : genPoints count bounds rng fuel = some pts) :
    List.Pairwise sep pts ∧
      ∀ (l : List Pt) (a b : Pt), pts = l ++ [a, b] → eps ≤ b.y - a.y := by
  obtain ⟨out, hloop, hpts⟩ := Option.map_eq_some'.mp h
  obtain ⟨hpw, hlen, _⟩ :=
    genPointsLoop_spec bounds rng count fuel 0 [] out hloop List.Pairwise.nil
  have hsp : List.Pairwise sep (sortByY out) :=
    ((sortByY_perm out).pairwise_iff fun hab => sep_symm hab).mpr hpw
  have hsort := sortByY_sorted out
  subst hpts
  by_cases h2 : 2 ≤ (sortByY out).length
  · obtain ⟨l, a, b, hdec⟩ := exists_concat2 _ h2
    rw [hdec] at hsp hsort ⊢
    rw [nudgeLast_concat2]
    rw [List.pairwise_append] at hsp hsort
    obtain ⟨Pl, Pab, PH⟩ := hsp
    obtain ⟨Sl, Sab, SH⟩ := hsort
    have hab : a.y ≤ b.y := by
      rw [List.pairwise_cons] at Sab
      exact Sab.1 b (by simp)
    by_cases hnudge : b.y - a.y < eps
    · rw [if_pos hnudge]
      constructor
      · rw [List.pairwise_append]
        refine ⟨Pl, ?_, ?_⟩
        · refine List.pairwise_cons.mpr ⟨?_, by simp⟩
          intro v hv
          have hveq := List.mem_singleton.mp hv
          subst hveq
          right
          show eps ≤ |a.y - (b.y + eps)|
          rw [abs_sub_comm]
          calc eps ≤ b.y + eps - a.y := by linarith
          _ ≤ |b.y + eps - a.y| := le_abs_self _
        · intro u hu v hv
          rcases List.mem_cons.mp hv with hveq | hv2
          · rw [hveq]
            exact PH u hu a (by simp)
          · have hveq := List.mem_singleton.mp hv2
            subst hveq
            have huy : u.y ≤ b.y := SH u hu b (by simp)
            right
            show eps ≤ |u.y - (b.y + eps)|
            rw [abs_sub_comm]
            calc eps ≤ b.y + eps - u.y := by linarith
            _ ≤ |b.y + eps - u.y| := le_abs_self _
      · intro l2 a2 b2 heq
        obtain ⟨rfl, rfl, rfl⟩ := concat2_inj heq
        show eps ≤ b.y + eps - a.y
        linarith
    · rw [if_neg hnudge]
      refine ⟨by rw [List.pairwise_append]; exact ⟨Pl, Pab, PH⟩, ?_⟩
      intro l2 a2 b2 heq
      obtain ⟨rfl, rfl, rfl⟩ := concat2_inj heq
      linarith [not_lt.mp hnudge]
  · rw [nudgeLast_small _ (by omega)]
    refine ⟨hsp, ?_⟩
    intro l a b heq
    rw [heq] at h2
    exact absurd (by simp : 2 ≤ (l ++ [a, b]).length) h2

/-- Witness for C8 at a concrete run: two accepted points separated in
both coordinates, with a top `y`-gap of `1/2 ≥ epsilon`. -/
theorem genPoints_sep_witness :
    genPoints 2 ⟨1, 1⟩ sepRng 5 = some [⟨0, 0⟩, ⟨1/2, 1/2⟩] ∧
      eps ≤ (⟨1/2, 1/2⟩ : Pt).y - (⟨0, 0⟩ : Pt).y :=
  ⟨by with_unfolding_all rfl,
   (genPoints_sep 2 ⟨1, 1⟩ sepRng 5 [⟨0, 0⟩, ⟨1/2, 1/2⟩] (by norm_num)
      (by norm_num) (by with_unfolding_all rfl)).2 [] ⟨0, 0⟩ ⟨1/2, 1/2⟩ rfl⟩

/-- C9 (amended): a successful sampling run returns exactly `count`
points; every point has `x ∈ [0, bounds.x)` and `y ∈ [0, bounds.y + ε)`,
and every point except possibly the last stays below `bounds.y` — the
final `y`-nudge can push the last point's `y` up to just under
`bounds.y + ε`, outside the sampling rectangle. -/
theorem genPoints_range (count : Nat) (bounds : Pt) (rng : Nat → ℚ)
    (fuel : Nat) (pts : List Pt)
    (hr : ∀ n, 0 ≤ rng n ∧ rng n < 1) (hx : 0 < bounds.x) (hy : 0 < bounds.y)
    (h : genPoints count bounds rng fuel = some pts) :
    pts.length = count ∧
      (∀ p ∈ pts, 0 ≤ p.x ∧ p.x < bounds.x ∧ 0 ≤ p.y ∧ p.y < bounds.y + eps) ∧
      (∀ p ∈ pts.dropLast, p.y < bounds.y) := by
  have heps : (0 : ℚ) < eps := by norm_num [eps]
  obtain ⟨out, hloop, hpts⟩ := Option.map_eq_some'.mp h
  obtain ⟨_, hlen, hmem⟩ :=
    genPointsLoop_spec bounds rng count fuel 0 [] out hloop List.Pairwise.nil
  simp only [List.length_nil, Nat.zero_add] at hlen
  have hinr : ∀ p ∈ out, 0 ≤ p.x ∧ p.x < bounds.x ∧ 0 ≤ p.y ∧ p.y < bounds.y := by
    intro p hp
    rcases hmem p hp with hin | ⟨k0, rfl⟩
    · exact absurd hin (by simp)
    · refine ⟨mul_nonneg (hr k0).1 (le_of_lt hx), ?_,
        mul_nonneg (hr (k0 + 1)).1 (le_of_lt hy), ?_⟩
      · calc rng k0 * bounds.x < 1 * bounds.x :=
            mul_lt_mul_of_pos_right (hr k0).2 hx
          _ = bounds.x := one_mul _
      · calc rng (k0 + 1) * bounds.y < 1 * bounds.y :=
            mul_lt_mul_of_pos_right (hr (k0 + 1)).2 hy
          _ = bounds.y := one_mul _
  have hsortmem : ∀ p ∈ sortByY out, 0 ≤ p.x ∧ p.x < bounds.x ∧ 0 ≤ p.y ∧ p.y < bounds.y :=
    fun p hp => hinr p ((sortByY_perm out).mem_iff.mp hp)
  have hsortlen : (sortByY out).length = count := by
    rw [(sortByY_perm out).length_eq, hlen]
  subst hpts
  by_cases h2 : 2 ≤ (sortByY out).length
  · obtain ⟨l, a, b, hdec⟩ := exists_concat2 _ h2
    rw [hdec] at hsortmem hsortlen ⊢
    rw [nudgeLast_concat2]
    by_cases hnudge : b.y - a.y < eps
    · rw [if_pos hnudge]
      obtain ⟨hbx1, hbx2, hby1, hby2⟩ := hsortmem b (by simp)
      refine ⟨by simpa using hsortlen, ?_, ?_⟩
      · intro p hp
        rcases List.mem_append.mp hp with hp2 | hp2
        · obtain ⟨u1, u2, u3, u4⟩ := hsortmem p (by simp [hp2])
          exact ⟨u1, u2, u3, by linarith⟩
        · rcases List.mem_cons.mp hp2 with hpeq | hp3
          · rw [hpeq]
            obtain ⟨u1, u2, u3, u4⟩ := hsortmem a (by simp)
            exact ⟨u1, u2, u3, by linarith⟩
          · have hpeq := List.mem_singleton.mp hp3
            subst hpeq
            refine ⟨hbx1, hbx2, ?_, ?_⟩
            · show 0 ≤ b.y + eps
              linarith
            · show b.y + eps < bounds.y + eps
              linarith
      · rw [dropLast_concat2]
        intro p hp
        rcases List.mem_append.mp hp with hp2 | hp2
        · exact (hsortmem p (by simp [hp2])).2.2.2
        · have hpeq := List.mem_singleton.mp hp2
          rw [hpeq]
          exact (hsortmem a (by simp)).2.2.2
    · rw [if_neg hnudge]
      refine ⟨hsortlen, ?_, ?_⟩
      · intro p hp
        obtain ⟨u1, u2, u3, u4⟩ := hsortmem p hp
        exact ⟨u1, u2, u3, by linarith⟩
      · rw [dropLast_concat2]
        intro p hp
        rcases List.mem_append.mp hp with hp2 | hp2
        · exact (hsortmem p (by simp [hp2])).2.2.2
        · have hpeq := List.mem_singleton.mp hp2
          rw [hpeq]
          exact (hsortmem a (by simp)).2.2.2
  · rw [nudgeLast_small _ (by omega)]
    refine ⟨hsortlen, ?_, ?_⟩
    · intro p hp
      obtain ⟨u1, u2, u3, u4⟩ := hsortmem p hp
      exact ⟨u1, u2, u3, by linarith⟩
    · intro p hp
      exact (hsortmem p (List.dropLast_subset _ hp)).2.2.2

/-- Witness for C9's amended theorem at a concrete in-range run. -/
theorem genPoints_range_witness :
    genPoints 1 ⟨1, 1⟩ zeroRng 1 = some [⟨0, 0⟩] ∧ [(⟨0, 0⟩ : Pt)].length = 1 :=
  ⟨by with_unfolding_all rfl,
   (genPoints_range 1 ⟨1, 1⟩ zeroRng 1 [⟨0, 0⟩]
      (fun n => by norm_num [zeroRng]) (by norm_num) (by norm_num)
      (by with_unfolding_all rfl)).1⟩

/-! ## Generic lemmas on graphs, `modifyIdx`, `findEdgeUndirected` -/

theorem modifyIdx_length {α : Type} (l : List α) (i : Nat) (f : α → α) :
    (modifyIdx l i f).length = l.length := by
  induction l generalizing i with
  | nil => rfl
  | cons x xs ih =>
    cases i with
    | zero => simp [modifyIdx]
    | succ n => simp [modifyIdx, ih]

theorem getElem?_modifyIdx {α : Type} (l : List α) (i : Nat) (f : α → α) (j : Nat) :
    (modifyIdx l i f)[j]? = if i = j then (l[j]?).map f else l[j]? := by
  induction l generalizing i j with
  | nil => simp [modifyIdx]
  | cons x xs ih =>
    cases i with
    | zero =>
      cases j with
      | zero => simp [modifyIdx]
      | succ m => simp [modifyIdx]
    | succ n =>
      cases j with
      | zero => simp [modifyIdx]
      | succ m => simpa [modifyIdx] using ih n m

theorem modifyIdx_concat_self {α : Type} (l : List α) (b : α) (f : α → α) :
    modifyIdx (l ++ [b]) l.length f = l ++ [f b] := by
  induction l with
  | nil => rfl
  | cons x xs ih => simp [modifyIdx, ih]

theorem pairMemP_self (s t : Nat) : pairMemP s t s t = true := by
  simp [pairMemP]

theorem pairMemP_comm (s t a b : Nat) : pairMemP s t a b = pairMemP a b s t := by
  rw [Bool.eq_iff_iff]
  simp only [pairMemP, Bool.or_eq_true, Bool.and_eq_true, beq_iff_eq]
  constructor
  · rintro (⟨h1, h2⟩ | ⟨h1, h2⟩)
    · exact Or.inl ⟨h1.symm, h2.symm⟩
    · exact Or.inr ⟨h2.symm, h1.symm⟩
  · rintro (⟨h1, h2⟩ | ⟨h1, h2⟩)
    · exact Or.inl ⟨h1.symm, h2.symm⟩
    · exact Or.inr ⟨h2.symm, h1.symm⟩

theorem find_none_iff {E : Type} (es : List (GEdge E)) (a b : Nat) :
    findEdgeUndirected es a b = none ↔ ∀ e ∈ es, pairMem e a b = false := by
  induction es with
  | nil => simp [findEdgeUndirected]
  | cons e es ih =>
    simp only [findEdgeUndirected]
    by_cases h : pairMem e a b = true
    · rw [if_pos h]
      simp only [List.mem_cons]
      constructor
      · intro hc; exact absurd hc (by simp)
      · intro hall
        have := hall e (Or.inl rfl)
        rw [h] at this
        exact absurd this (by simp)
    · rw [if_neg h]
      rw [Option.map_eq_none']
      rw [ih]
      constructor
      · intro hall e2 hm
        rcases List.mem_cons.mp hm with heq | hm2
        · rw [heq]; exact Bool.not_eq_true _ ▸ h
        · exact hall e2 hm2
      · intro hall e2 hm2
        exact hall e2 (List.mem_cons_of_mem _ hm2)

theorem find_some_spec {E : Type} : ∀ (es : List (GEdge E)) (a b i : Nat),
    findEdgeUndirected es a b = some i →
    ∃ e, es[i]? = some e ∧ pairMem e a b = true := by
  intro es
  induction es with
  | nil => intro a b i h; exact absurd h (by simp [findEdgeUndirected])
  | cons e es ih =>
    intro a b i h
    simp only [findEdgeUndirected] at h
    by_cases hm : pairMem e a b = true
    · rw [if_pos hm] at h
      obtain rfl : i = 0 := by simpa using h.symm
      exact ⟨e, by simp, hm⟩
    · rw [if_neg hm] at h
      obtain ⟨i0, hi0, rfl⟩ := Option.map_eq_some'.mp h
      obtain ⟨e2, he2, hm2⟩ := ih a b i0 hi0
      exact ⟨e2, by simpa using he2, hm2⟩

theorem find_eq_some_of {E : Type} : ∀ (es : List (GEdge E)) (a b i : Nat) (e : GEdge E),
    es[i]? = some e → pairMem e a b = true →
    (∀ (j : Nat) (e2 : GEdge E), j < i → es[j]? = some e2 → pairMem e2 a b = false) →
    findEdgeUndirected es a b = some i := by
  intro es
  induction es with
  | nil => intro a b i e h _ _; exact absurd h (by simp)
  | cons e0 es ih =>
    intro a b i e h hm hprev
    cases i with
    | zero =>
      obtain rfl : e0 = e := by simpa using h
      simp [findEdgeUndirected, hm]
    | succ n =>
      have h0 : pairMem e0 a b = false := hprev 0 e0 (by omega) (by simp)
      have ht : es[n]? = some e := by simpa using h
      rw [findEdgeUndirected, if_neg (by simp [h0])]
      rw [ih a b n e ht hm
        (fun j e2 hj hje => hprev (j + 1) e2 (by omega) (by simpa using hje))]
      rfl

theorem find_congr {E F : Type} : ∀ (es1 : List (GEdge E)) (es2 : List (GEdge F)) (a b : Nat),
    es1.map edgeEnds = es2.map edgeEnds →
    findEdgeUndirected es1 a b = findEdgeUndirected es2 a b := by
  intro es1
  induction es1 with
  | nil =>
    intro es2 a b h
    cases es2 with
    | nil => rfl
    | cons e2 t => exact absurd h (by simp)
  | cons e es ih =>
    intro es2 a b h
    cases es2 with
    | nil => exact absurd h (by simp)
    | cons e2 es2t =>
      simp only [List.map_cons, List.cons.injEq] at h
      obtain ⟨hh, ht⟩ := h
      have h1 : e.source = e2.source := congrArg Prod.fst hh
      have h2 : e.target = e2.target := congrArg Prod.snd hh
      have hpm : pairMem e a b = pairMem e2 a b := by
        unfold pairMem
        rw [h1, h2]
      rw [findEdgeUndirected, findEdgeUndirected, hpm, ih es2t a b ht]

theorem pairwise_distinct_iff_map {E : Type} (es : List (GEdge E)) :
    List.Pairwise (@distinctPair E E) es ↔
      List.Pairwise (fun p q : Nat × Nat => pairMemP q.1 q.2 p.1 p.2 = false)
        (es.map edgeEnds) :=
  (@List.pairwise_map (GEdge E) (Nat × Nat) edgeEnds
    (fun p q => pairMemP q.1 q.2 p.1 p.2 = false) es).symm

theorem pairwise_distinct_congr {E F : Type} (es1 : List (GEdge E)) (es2 : List (GEdge F))
    (h : es1.map edgeEnds = es2.map edgeEnds)
    (hp : List.Pairwise distinctPair es1) : List.Pairwise distinctPair es2 := by
  rw [pairwise_distinct_iff_map] at hp ⊢
  rwa [h] at hp

theorem modifyIdx_map_edgeEnds {E : Type} (es : List (GEdge E)) (i : Nat)
    (g : GEdge E → GEdge E) (hg : ∀ e, edgeEnds (g e) = edgeEnds e) :
    (modifyIdx es i g).map edgeEnds = es.map edgeEnds := by
  induction es generalizing i with
  | nil => rfl
  | cons x xs ih =>
    cases i with
    | zero => simp [modifyIdx, hg]
    | succ n => simp [modifyIdx, ih]

theorem posSum_aux_congr : ∀ (bs : List Nat) (gn g2n : List BorderNode) (init : Pt),
    (∀ b ∈ bs, g2n.getD b default = gn.getD b default) →
    bs.foldl (fun acc b => acc + (g2n.getD b default).pos) init =
      bs.foldl (fun acc b => acc + (gn.getD b default).pos) init := by
  intro bs
  induction bs with
  | nil => intro gn g2n init _; rfl
  | cons b bs ih =>
    intro gn g2n init h
    rw [List.foldl_cons, List.foldl_cons, h b (by simp)]
    exact ih gn g2n _ (fun x hx => h x (by simp [hx]))

theorem posSum_congr (g g2 : BorderGraph) (bs : List Nat)
    (h : ∀ b ∈ bs, g2.nodes.getD b default = g.nodes.getD b default) :
    posSum g2 bs = posSum g bs :=
  posSum_aux_congr bs g.nodes g2.nodes ⟨0, 0⟩ h

theorem posSum_append (bg : BorderGraph) (bs : List Nat) (b : Nat) :
    posSum bg (bs ++ [b]) = posSum bg bs + (bg.nodes.getD b default).pos := by
  unfold posSum
  rw [List.foldl_append]
  rfl

theorem posSum_nodes_eq (g g2 : BorderGraph) (bs : List Nat)
    (h : g2.nodes = g.nodes) : posSum g2 bs = posSum g bs := by
  unfold posSum
  rw [h]

theorem lookupIdx_cons (k v j : Nat) (m : List (Nat × Nat)) :
    lookupIdx ((k, v) :: m) j = if k = j then some v else lookupIdx m j := by
  by_cases h : k = j
  · subst h
    simp [lookupIdx, List.find?]
  · have hbeq : (k == j) = false := by simp [h]
    simp [lookupIdx, List.find?, hbeq, h]

/-! ## Pass A: node interning and the face walk -/

theorem getD_eq_of_getElem? {α : Type} [Inhabited α] (l : List α) (i : Nat) (x : α)
    (h : l[i]? = some x) : l.getD i default = x := by
  rw [List.getD_eq_getElem?_getD, h]
  rfl

/-- What `get_or_insert_border_node` guarantees: the border-graph
invariants are preserved, nodes only extend, edges are untouched, and the
returned index carries the requested vertex's coordinates with an empty
`regions` list. -/
theorem getOrInsertBorderNode_spec (d : DCEL) (map : List (Nat × Nat))
    (g : BorderGraph) (idx : Nat) (map2 : List (Nat × Nat)) (g2 : BorderGraph)
    (n : Nat) (hm : MapConsistent d map g) (hr : NodesRegionsEmpty g)
    (h : getOrInsertBorderNode map g d idx = some (map2, g2, n)) :
    MapConsistent d map2 g2 ∧ NodesRegionsEmpty g2 ∧ NodesExtend g g2 ∧
      g2.edges = g.edges ∧
      ∃ v, d.vertices[idx]? = some v ∧ g2.nodes[n]? = some ⟨[], v.coordinates⟩ := by
  unfold getOrInsertBorderNode at h
  cases hl : lookupIdx map idx with
  | some n0 =>
    rw [hl] at h
    obtain ⟨he1, he2, he3⟩ : map = map2 ∧ g = g2 ∧ n0 = n := by simpa using h
    subst he1
    subst he2
    subst he3
    have hmem : (idx, n0) ∈ map := by
      unfold lookupIdx at hl
      obtain ⟨kv, hfind, hsnd⟩ := Option.map_eq_some'.mp hl
      have h1 : kv.1 = idx := by simpa using List.find?_some hfind
      have h2 := List.mem_of_find?_eq_some hfind
      have hkv : kv = (idx, n0) := by
        cases kv
        simp only [Prod.mk.injEq]
        exact ⟨h1, hsnd⟩
      rwa [hkv] at h2
    obtain ⟨v, hv, hn⟩ := hm (idx, n0) hmem
    exact ⟨hm, hr, fun i nn hnn => hnn, rfl, v, hv, hn⟩
  | none =>
    rw [hl] at h
    cases hv : d.vertices[idx]? with
    | none => rw [hv] at h; exact absurd h (by simp)
    | some v =>
      rw [hv] at h
      obtain ⟨rfl, rfl, rfl⟩ :
          (idx, g.nodes.length) :: map = map2 ∧
            ({ g with nodes := g.nodes ++ [⟨[], v.coordinates⟩] } : BorderGraph) = g2 ∧
            g.nodes.length = n := by simpa using h
      refine ⟨?_, ?_, ?_, rfl, v, rfl, ?_⟩
      · intro kv hkv
        rcases List.mem_cons.mp hkv with heq | hkv2
        · subst heq
          refine ⟨v, hv, ?_⟩
          show (g.nodes ++ [(⟨[], v.coordinates⟩ : BorderNode)])[g.nodes.length]? = _
          exact List.getElem?_concat_length _ _
        · obtain ⟨v2, hv2, hn2⟩ := hm kv hkv2
          have hlt : kv.2 < g.nodes.length := (List.getElem?_eq_some_iff.mp hn2).1
          exact ⟨v2, hv2, by
            show (g.nodes ++ [(⟨[], v.coordinates⟩ : BorderNode)])[kv.2]? = _
            rw [List.getElem?_append_left hlt]
            exact hn2⟩
      · intro nn hnn
        rcases List.mem_append.mp hnn with h1 | h1
        · exact hr nn h1
        · rw [List.mem_singleton.mp h1]
      · intro i nn hnn
        have hlt : i < g.nodes.length := (List.getElem?_eq_some_iff.mp hnn).1
        show (g.nodes ++ [(⟨[], v.coordinates⟩ : BorderNode)])[i]? = _
        rw [List.getElem?_append_left hlt]
        exact hnn
      · show (g.nodes ++ [(⟨[], v.coordinates⟩ : BorderNode)])[g.nodes.length]? = _
        exact List.getElem?_concat_length _ _

/-- The find-or-insert step preserves edge-pair distinctness and never
touches nodes. -/
theorem findOrInsertBorderEdge_spec (g : BorderGraph) (a b : Nat)
    (g2 : BorderGraph) (e : Nat) (hp : EdgesDistinct g)
    (h : findOrInsertBorderEdge g a b = (g2, e)) :
    EdgesDistinct g2 ∧ g2.nodes = g.nodes := by
  unfold findOrInsertBorderEdge at h
  cases hf : findEdgeUndirected g.edges a b with
  | some e0 =>
    rw [hf] at h
    obtain ⟨rfl, rfl⟩ : g = g2 ∧ e0 = e := by simpa using h
    exact ⟨hp, rfl⟩
  | none =>
    rw [hf] at h
    obtain ⟨rfl, rfl⟩ :
        ({ g with edges := g.edges ++ [⟨a, b, ⟨none, []⟩⟩] } : BorderGraph) = g2 ∧
          g.edges.length = e := by simpa using h
    refine ⟨?_, rfl⟩
    unfold EdgesDistinct at hp ⊢
    show List.Pairwise distinctPair (g.edges ++ [⟨a, b, ⟨none, []⟩⟩])
    rw [List.pairwise_append]
    refine ⟨hp, by simp, ?_⟩
    intro e1 he1 e2 he2
    rw [List.mem_singleton.mp he2]
    show pairMemP a b e1.source e1.target = false
    rw [pairMemP_comm]
    exact (find_none_iff g.edges a b).mp hf e1 he1

theorem pushEdgeRegion_nodes (g : BorderGraph) (e r : Nat) :
    (pushEdgeRegion g e r).nodes = g.nodes := rfl

theorem pushEdgeRegion_ends (g : BorderGraph) (e r : Nat) :
    (pushEdgeRegion g e r).edges.map edgeEnds = g.edges.map edgeEnds :=
  modifyIdx_map_edgeEnds _ _ _ (fun _ => rfl)

theorem pushEdgeRegion_distinct (g : BorderGraph) (e r : Nat)
    (hp : EdgesDistinct g) : EdgesDistinct (pushEdgeRegion g e r) :=
  pairwise_distinct_congr _ _ (pushEdgeRegion_ends g e r).symm hp

/-- The face-walk invariant is preserved by the walk; nodes only extend
and at least one step is taken. -/
theorem walkFace_spec (d : DCEL) (r oc : Nat) : ∀ (fuel curr : Nat)
    (st st2 : WalkState), WInv d st → walkFace d r oc fuel curr st = some st2 →
    WInv d st2 ∧ NodesExtend st.bg st2.bg ∧ st.num + 1 ≤ st2.num := by
  intro fuel
  induction fuel with
  | zero => intro curr st st2 _ h; exact absurd h (by simp [walkFace])
  | succ f ih =>
    intro curr st st2 hinv h
    obtain ⟨hdp, hre, hmc, hbmem, hpos, hnum⟩ := hinv
    simp only [walkFace] at h
    obtain ⟨heP, hheP, h⟩ := Option.bind_eq_some.mp h
    obtain ⟨heC, hheC, h⟩ := Option.bind_eq_some.mp h
    obtain ⟨⟨bmap, bg, border_idx⟩, hgo1, h⟩ := Option.bind_eq_some.mp h
    obtain ⟨⟨bmap2, bg2, next_idx⟩, hgo2, h⟩ := Option.bind_eq_some.mp h
    obtain ⟨hmc1, hre1, hext1, hedges1, v1, hv1, hnode1⟩ :=
      getOrInsertBorderNode_spec d st.bmap st.bg heC.origin bmap bg border_idx
        hmc hre hgo1
    have hdp1 : EdgesDistinct bg := by
      unfold EdgesDistinct
      rw [hedges1]
      exact hdp
    obtain ⟨hmc2, hre2, hext2, hedges2, v2, hv2, hnode2⟩ :=
      getOrInsertBorderNode_spec d bmap bg heP.origin bmap2 bg2 next_idx
        hmc1 hre1 hgo2
    have hdp2 : EdgesDistinct bg2 := by
      unfold EdgesDistinct
      rw [hedges2]
      exact hdp1
    obtain ⟨bg3, edge_idx, hfi⟩ :
        ∃ bg3 e, findOrInsertBorderEdge bg2 border_idx next_idx = (bg3, e) :=
      ⟨_, _, rfl⟩
    rw [hfi] at h
    obtain ⟨hdp3, hnodes3⟩ :=
      findOrInsertBorderEdge_spec bg2 border_idx next_idx bg3 edge_idx hdp2 hfi
    obtain ⟨v, hv, h⟩ := Option.bind_eq_some.mp h
    have hveq : v1 = v := by
      rw [hv1] at hv
      exact Option.some_inj.mp hv
    subst hveq
    set bg4 := pushEdgeRegion bg3 edge_idx r with hbg4
    have hnodes4 : bg4.nodes = bg2.nodes := by
      rw [hbg4, pushEdgeRegion_nodes, hnodes3]
    have hdp4 : EdgesDistinct bg4 := pushEdgeRegion_distinct bg3 edge_idx r hdp3
    have hext4 : NodesExtend st.bg bg4 := by
      intro i nn h0
      rw [show bg4.nodes[i]? = bg2.nodes[i]? by rw [hnodes4]]
      exact hext2 i nn (hext1 i nn h0)
    have hre4 : NodesRegionsEmpty bg4 := by
      intro nn hnn
      rw [show bg4.nodes = bg2.nodes from hnodes4] at hnn
      exact hre2 nn hnn
    have hmc4 : MapConsistent d bmap2 bg4 := by
      intro kv hkv
      obtain ⟨vv, hvv, hnn⟩ := hmc2 kv hkv
      exact ⟨vv, hvv, by rw [show bg4.nodes = bg2.nodes from hnodes4]; exact hnn⟩
    have hnode1ext : bg4.nodes[border_idx]? = some ⟨[], v1.coordinates⟩ := by
      rw [show bg4.nodes = bg2.nodes from hnodes4]
      exact hext2 border_idx _ hnode1
    have hbmem4 : ∀ b ∈ st.borders ++ [border_idx], ∃ nn, bg4.nodes[b]? = some nn := by
      intro b hb
      rcases List.mem_append.mp hb with hb1 | hb1
      · obtain ⟨nn, hnn⟩ := hbmem b hb1
        exact ⟨nn, hext4 b nn hnn⟩
      · rw [List.mem_singleton.mp hb1]
        exact ⟨_, hnode1ext⟩
    have hpos4 : st.pos + v1.coordinates = posSum bg4 (st.borders ++ [border_idx]) := by
      rw [posSum_append]
      have hcongr : posSum bg4 st.borders = posSum st.bg st.borders := by
        apply posSum_congr
        intro b hb
        obtain ⟨nn, hnn⟩ := hbmem b hb
        rw [getD_eq_of_getElem? _ _ _ hnn, getD_eq_of_getElem? _ _ _ (hext4 b nn hnn)]
      rw [hcongr, ← hpos, getD_eq_of_getElem? _ _ _ hnode1ext]
    have hinv2 : WInv d ⟨bmap2, bg4, st.borders ++ [border_idx],
        st.pos + v1.coordinates, st.num + 1⟩ := by
      refine ⟨hdp4, hre4, hmc4, hbmem4, hpos4, ?_⟩
      show st.num + 1 = (st.borders ++ [border_idx]).length
      rw [List.length_append, hnum]
      rfl
    by_cases hoc : heP.next = oc
    · rw [if_pos hoc] at h
      obtain rfl := Option.some_inj.mp h
      exact ⟨hinv2, hext4, Nat.le_refl _⟩
    · rw [if_neg hoc] at h
      obtain ⟨hinvf, hextf, hnumf⟩ := ih heP.next _ st2 hinv2 h
      have hnumf2 : st.num + 1 + 1 ≤ st2.num := hnumf
      refine ⟨hinvf, ?_, by omega⟩
      intro i nn h0
      exact hextf i nn (hext4 i nn h0)

/-- `RegionOK` survives extension of the border graph's node list. -/
theorem RegionOK_extend (g g2 : BorderGraph) (r : RegionNode)
    (hext : NodesExtend g g2) (hok : RegionOK g r) : RegionOK g2 r := by
  obtain ⟨h1, h2, h3⟩ := hok
  refine ⟨h1, ?_, ?_⟩
  · intro b hb
    obtain ⟨nn, hnn⟩ := h2 b hb
    exact ⟨nn, hext b nn hnn⟩
  · rw [h3]
    have : posSum g2 r.borders = posSum g r.borders := by
      apply posSum_congr
      intro b hb
      obtain ⟨nn, hnn⟩ := h2 b hb
      rw [getD_eq_of_getElem? _ _ _ hnn, getD_eq_of_getElem? _ _ _ (hext b nn hnn)]
    rw [this]

/-- One pass-A face step preserves the pass-A invariant, advancing the
face index. -/
theorem processFace_spec (d : DCEL) (fuel : Nat) (st : BuildState) (i : Nat)
    (face : Face) (st2 : BuildState) (hinv : AInv d st i)
    (h : processFace d fuel st i face = some st2) : AInv d st2 (i + 1) := by
  obtain ⟨hlen, hedges, hlookup, hdp, hre, hmc, hrok⟩ := hinv
  unfold processFace at h
  have hins : getOrInsertRegionNode st.rmap st.rg ⟨0, 0⟩ i =
      ((i, st.rg.nodes.length) :: st.rmap,
        { st.rg with nodes := st.rg.nodes ++ [⟨[], ⟨0, 0⟩⟩] },
        st.rg.nodes.length) := by
    unfold getOrInsertRegionNode
    rw [hlookup i (Nat.le_refl i)]
  rw [hins] at h
  obtain ⟨w, hw, h2⟩ := Option.bind_eq_some.mp h
  have hinv0 : WInv d ⟨st.bmap, st.bg, [], ⟨0, 0⟩, 0⟩ := by
    refine ⟨hdp, hre, hmc, ?_, rfl, rfl⟩
    intro b hb
    exact absurd hb (by simp)
  obtain ⟨⟨hdpw, hrew, hmcw, hbmemw, hposw, hnumw⟩, hextw, hnumge⟩ :=
    walkFace_spec d st.rg.nodes.length face.outer_component fuel
      face.outer_component _ w hinv0 hw
  have hmod : modifyIdx (st.rg.nodes ++ [⟨[], ⟨0, 0⟩⟩]) st.rg.nodes.length
      (fun n => ⟨n.borders ++ w.borders, w.pos.divN w.num⟩) =
      st.rg.nodes ++ [⟨[] ++ w.borders, w.pos.divN w.num⟩] :=
    modifyIdx_concat_self _ _ _
  obtain rfl := Option.some_inj.mp h2
  refine ⟨?_, ?_, ?_, hdpw, hrew, hmcw, ?_⟩
  · show (modifyIdx (st.rg.nodes ++ [⟨[], ⟨0, 0⟩⟩]) st.rg.nodes.length _).length = i + 1
    rw [hmod]
    simp [hlen]
  · exact hedges
  · intro j hj
    show lookupIdx ((i, st.rg.nodes.length) :: st.rmap) j = none
    rw [lookupIdx_cons, if_neg (by omega)]
    exact hlookup j (by omega)
  · intro r hr
    show RegionOK w.bg r
    rw [show (modifyIdx (st.rg.nodes ++ [⟨[], ⟨0, 0⟩⟩]) st.rg.nodes.length
      (fun n => ⟨n.borders ++ w.borders, w.pos.divN w.num⟩)) =
      st.rg.nodes ++ [⟨[] ++ w.borders, w.pos.divN w.num⟩] from hmod] at hr
    rcases List.mem_append.mp hr with hr1 | hr1
    · exact RegionOK_extend st.bg w.bg r hextw (hrok r hr1)
    · rw [List.mem_singleton.mp hr1]
      have hne : w.borders ≠ [] := by
        apply List.ne_nil_of_length_pos
        omega
      refine ⟨by simpa using hne, by simpa using hbmemw, ?_⟩
      show w.pos.divN w.num = (posSum w.bg ([] ++ w.borders)).divN ([] ++ w.borders).length
      rw [List.nil_append, ← hposw, ← hnumw]

/-- Pass A over a face suffix preserves the invariant. -/
theorem passAList_spec (d : DCEL) (fuel : Nat) : ∀ (fs : List Face) (i : Nat)
    (st st2 : BuildState), AInv d st i → passAList d fuel fs i st = some st2 →
    AInv d st2 (i + fs.length) := by
  intro fs
  induction fs with
  | nil =>
    intro i st st2 hinv h
    obtain rfl : st = st2 := by simpa [passAList] using h
    simpa using hinv
  | cons f fs ih =>
    intro i st st2 hinv h
    simp only [passAList] at h
    obtain ⟨stm, hstep, h2⟩ := Option.bind_eq_some.mp h
    have hmid := processFace_spec d fuel st i f stm hinv hstep
    have hfin := ih (i + 1) stm st2 hmid h2
    have harith : i + (f :: fs).length = i + 1 + fs.length := by
      simp [List.length_cons]
      omega
    rw [harith]
    exact hfin

/-- What pass A guarantees about its output graphs. -/
theorem passA_spec (d : DCEL) (fuel : Nat) (rg : RegionGraph) (bg : BorderGraph)
    (h : passA d fuel = some (rg, bg)) :
    rg.nodes.length = d.faces.length - 1 ∧ rg.edges = [] ∧ EdgesDistinct bg ∧
      NodesRegionsEmpty bg ∧ ∀ r ∈ rg.nodes, RegionOK bg r := by
  unfold passA at h
  obtain ⟨st, hrun, hpair⟩ := Option.map_eq_some'.mp h
  have hinv0 : AInv d ⟨[], ⟨[], []⟩, [], ⟨[], []⟩⟩ 0 := by
    refine ⟨rfl, rfl, fun j _ => rfl, List.Pairwise.nil, ?_, ?_, ?_⟩
    · intro n hn; exact absurd hn (by simp)
    · intro kv hkv; exact absurd hkv (by simp)
    · intro r hr; exact absurd hr (by simp)
  have hfin := passAList_spec d fuel _ 0 _ st hinv0 hrun
  have hlen : (d.faces.take (d.faces.length - 1)).length = d.faces.length - 1 := by
    rw [List.length_take]
    exact Nat.min_eq_left (by omega)
  obtain ⟨h1, h2, h3, h4, h5, h6, h7⟩ := hfin
  obtain ⟨rfl, rfl⟩ : st.rg = rg ∧ st.bg = bg := by simpa using hpair
  rw [Nat.zero_add, hlen] at h1
  exact ⟨h1, h2, h4, h5, h7⟩

/-! ## Passes B and C: the duality wiring -/

/-- Pass B: starting from an edgeless region graph, every produced region
edge was created from a distinct border edge, in increasing border-edge
order, copying its endpoints into `borders` and its two `regions` entries
as the edge's endpoints. -/
theorem passBList_spec (bgEdges : List (GEdge BorderEdge)) :
    ∀ (es : List (GEdge BorderEdge)) (i : Nat) (rg rg2 : RegionGraph),
    bgEdges.drop i = es →
    (∀ e ∈ rg.edges, ∃ bi, bi < i ∧ edgeFrom bgEdges bi e) →
    List.Pairwise beLt rg.edges →
    passBList rg es i = some rg2 →
    rg2.nodes = rg.nodes ∧
      (∀ e ∈ rg2.edges, ∃ bi, bi < i + es.length ∧ edgeFrom bgEdges bi e) ∧
      List.Pairwise beLt rg2.edges := by
  intro es
  induction es with
  | nil =>
    intro i rg rg2 hdrop hfrom hlt h
    obtain rfl : rg = rg2 := by simpa [passBList] using h
    exact ⟨rfl, by simpa using hfrom, hlt⟩
  | cons e es ih =>
    intro i rg rg2 hdrop hfrom hlt h
    have hei : bgEdges[i]? = some e := by
      have hd := List.getElem?_drop bgEdges i 0
      rw [hdrop] at hd
      simpa using hd.symm
    have hdrop2 : bgEdges.drop (i + 1) = es := by
      have hd := List.drop_drop 1 i bgEdges
      rw [hdrop] at hd
      simpa using hd.symm
    simp only [passBList] at h
    obtain ⟨rgm, hstep, h2⟩ := Option.bind_eq_some.mp h
    have harith : i + (e :: es).length = i + 1 + es.length := by
      simp [List.length_cons]
      omega
    rw [harith]
    unfold passBStep at hstep
    rcases hreg : e.weight.regions with _ | ⟨a, _ | ⟨b, _ | ⟨c, t⟩⟩⟩
    · rw [hreg] at hstep
      have hstep2 : some rg = some rgm := hstep
      obtain rfl := Option.some_inj.mp hstep2
      exact ih (i + 1) rg rg2 hdrop2
        (fun e2 he2 => (hfrom e2 he2).imp fun bi hbi => ⟨by omega, hbi.2⟩) hlt h2
    · rw [hreg] at hstep
      have hstep2 : some rg = some rgm := hstep
      obtain rfl := Option.some_inj.mp hstep2
      exact ih (i + 1) rg rg2 hdrop2
        (fun e2 he2 => (hfrom e2 he2).imp fun bi hbi => ⟨by omega, hbi.2⟩) hlt h2
    · -- exactly two regions: find-or-insert the region edge
      rw [hreg] at hstep
      have hstep2 : some (match findEdgeUndirected rg.edges a b with
          | some _ => rg
          | none => { rg with edges := rg.edges ++
              [⟨a, b, ⟨some i, [e.source, e.target]⟩⟩] }) = some rgm := hstep
      cases hfind : findEdgeUndirected rg.edges a b with
      | some e0 =>
        rw [hfind] at hstep2
        obtain rfl : rg = rgm := by simpa using hstep2
        exact ih (i + 1) rg rg2 hdrop2
          (fun e2 he2 => (hfrom e2 he2).imp fun bi hbi => ⟨by omega, hbi.2⟩) hlt h2
      | none =>
        rw [hfind] at hstep2
        obtain rfl :
            ({ rg with edges := rg.edges ++
              [⟨a, b, ⟨some i, [e.source, e.target]⟩⟩] } : RegionGraph) = rgm := by
          simpa using hstep2
        have hfrom2 : ∀ e2 ∈ rg.edges ++ [⟨a, b, ⟨some i, [e.source, e.target]⟩⟩],
            ∃ bi, bi < i + 1 ∧ edgeFrom bgEdges bi e2 := by
          intro e2 he2
          rcases List.mem_append.mp he2 with he3 | he3
          · exact (hfrom e2 he3).imp fun bi hbi => ⟨by omega, hbi.2⟩
          · rw [List.mem_singleton.mp he3]
            exact ⟨i, by omega, rfl, e, hei, rfl, by rw [hreg]⟩
        have hlt2 : List.Pairwise beLt
            (rg.edges ++ [⟨a, b, ⟨some i, [e.source, e.target]⟩⟩]) := by
          rw [List.pairwise_append]
          refine ⟨hlt, by simp, ?_⟩
          intro e1 he1 e2 he2
          rw [List.mem_singleton.mp he2]
          intro b1 b2 hb1 hb2
          obtain ⟨bi, hbi, hef⟩ := hfrom e1 he1
          have hb1e : b1 = bi := by
            rw [hef.1] at hb1
            exact Option.some_inj.mp hb1.symm
          have hb2e : b2 = i := by
            simpa using hb2.symm
          omega
        obtain ⟨hn, hf, hl⟩ := ih (i + 1) _ rg2 hdrop2 hfrom2 hlt2 h2
        exact ⟨hn, hf, hl⟩
    · -- more than two regions: the assert fails
      rw [hreg] at hstep
      have hstep2 : (if 1 < (a :: b :: c :: t).length then (none : Option RegionGraph)
          else some rg) = some rgm := hstep
      rw [if_pos (by simp)] at hstep2
      exact absurd hstep2 (by simp)

/-- Edgewise endpoint data agrees between `SameButRE`-related graphs. -/
theorem SameButRE_map_ends (bg0 bgj : BorderGraph) (h : SameButRE bg0 bgj) :
    bgj.edges.map edgeEnds = bg0.edges.map edgeEnds := by
  apply List.ext_getElem?
  intro k
  rw [List.getElem?_map, List.getElem?_map]
  have h2 := congrArg (Option.map (fun t : Nat × Nat × List Nat => (t.1, t.2.1))) (h.2.2 k)
  rwa [Option.map_map, Option.map_map] at h2

/-- Setting `region_edge` at any index leaves every edge's endpoint and
`regions` data untouched. -/
theorem map_edgeERD_modify (es : List (GEdge BorderEdge)) (bi j k : Nat) :
    ((modifyIdx es bi
        (fun ed => { ed with weight := { ed.weight with region_edge := some j } }))[k]?).map
        edgeERD = (es[k]?).map edgeERD := by
  rw [getElem?_modifyIdx]
  by_cases hk : bi = k
  · rw [if_pos hk]
    cases hy : es[k]? with
    | none => rfl
    | some ed => rfl
  · rw [if_neg hk]

/-- Pass C: each region edge's unique border edge gets `region_edge`
pointed back at it, and nothing else about the border graph changes. -/
theorem passCList_spec (bg0 : BorderGraph) (rgEdges : List (GEdge RegionEdge))
    (hdp : EdgesDistinct bg0)
    (hfrom : ∀ (j : Nat) (e : GEdge RegionEdge), rgEdges[j]? = some e →
      ∃ bi, edgeFrom bg0.edges bi e)
    (hlt : List.Pairwise beLt rgEdges) :
    ∀ (es : List (GEdge RegionEdge)) (j : Nat) (bgj bg2 : BorderGraph),
    rgEdges.drop j = es →
    SameButRE bg0 bgj →
    (∀ (j2 : Nat) (e : GEdge RegionEdge) (bi : Nat), j2 < j →
      rgEdges[j2]? = some e → e.weight.border_edge = some bi →
      ∃ be, bgj.edges[bi]? = some be ∧ be.weight.region_edge = some j2) →
    passCList bgj es j = some bg2 →
    SameButRE bg0 bg2 ∧
      ∀ (j2 : Nat) (e : GEdge RegionEdge) (bi : Nat), j2 < j + es.length →
        rgEdges[j2]? = some e → e.weight.border_edge = some bi →
        ∃ be, bg2.edges[bi]? = some be ∧ be.weight.region_edge = some j2 := by
  intro es
  induction es with
  | nil =>
    intro j bgj bg2 hdrop hsame hdone h
    obtain rfl : bgj = bg2 := by simpa [passCList] using h
    exact ⟨hsame, fun j2 e bi hj2 hje hbe => hdone j2 e bi (by simpa using hj2) hje hbe⟩
  | cons e es ih =>
    intro j bgj bg2 hdrop hsame hdone h
    have hej : rgEdges[j]? = some e := by
      have hd := List.getElem?_drop rgEdges j 0
      rw [hdrop] at hd
      simpa using hd.symm
    have hdrop2 : rgEdges.drop (j + 1) = es := by
      have hd := List.drop_drop 1 j rgEdges
      rw [hdrop] at hd
      simpa using hd.symm
    simp only [passCList] at h
    obtain ⟨bgm, hstep, h2⟩ := Option.bind_eq_some.mp h
    obtain ⟨bi, hbe_some, be0, hbi0, hbord, hreg⟩ := hfrom j e hej
    unfold passCStep at hstep
    rw [hbord] at hstep
    have hstep2 : (findEdgeUndirected bgj.edges be0.source be0.target).map
        (fun bi2 => setRegionEdge bgj bi2 j) = some bgm := hstep
    have hbilt : bi < bg0.edges.length := (List.getElem?_eq_some_iff.mp hbi0).1
    have hfind : findEdgeUndirected bgj.edges be0.source be0.target = some bi := by
      rw [find_congr bgj.edges bg0.edges _ _ (SameButRE_map_ends bg0 bgj hsame)]
      apply find_eq_some_of bg0.edges be0.source be0.target bi be0 hbi0
        (by unfold pairMem; exact pairMemP_self _ _)
      intro k e2 hk hke
      have hk2 : k < bg0.edges.length := (List.getElem?_eq_some_iff.mp hke).1
      have hdpk := List.pairwise_iff_getElem.mp hdp k bi hk2 hbilt hk
      have he2 : bg0.edges[k] = e2 := (List.getElem?_eq_some_iff.mp hke).2
      have hbe : bg0.edges[bi] = be0 := (List.getElem?_eq_some_iff.mp hbi0).2
      rw [he2, hbe] at hdpk
      show pairMemP e2.source e2.target be0.source be0.target = false
      rw [pairMemP_comm]
      exact hdpk
    rw [hfind] at hstep2
    obtain rfl : setRegionEdge bgj bi j = bgm := by simpa using hstep2
    have hlenj : bgj.edges.length = bg0.edges.length := hsame.2.1
    have hsame2 : SameButRE bg0 (setRegionEdge bgj bi j) := by
      refine ⟨hsame.1, ?_, ?_⟩
      · show (modifyIdx bgj.edges bi _).length = bg0.edges.length
        rw [modifyIdx_length, hlenj]
      · intro k
        show ((modifyIdx bgj.edges bi
            (fun ed => { ed with weight :=
              { ed.weight with region_edge := some j } }))[k]?).map edgeERD = _
        rw [map_edgeERD_modify]
        exact hsame.2.2 k
    have hdone2 : ∀ (j2 : Nat) (e2 : GEdge RegionEdge) (bi2 : Nat), j2 < j + 1 →
        rgEdges[j2]? = some e2 → e2.weight.border_edge = some bi2 →
        ∃ be, (setRegionEdge bgj bi j).edges[bi2]? = some be ∧
          be.weight.region_edge = some j2 := by
      intro j2 e2 bi2 hj2 hje2 hbe2
      by_cases hjj : j2 = j
      · subst hjj
        have he2e : e2 = e := by
          rw [hej] at hje2
          exact Option.some_inj.mp hje2.symm
        subst he2e
        have hbi2e : bi2 = bi := by
          rw [hbe_some] at hbe2
          exact Option.some_inj.mp hbe2.symm
        subst hbi2e
        obtain ⟨bej, hbej⟩ : ∃ bej, bgj.edges[bi2]? = some bej := by
          have : bi2 < bgj.edges.length := by omega
          exact ⟨bgj.edges[bi2], (List.getElem?_eq_some_iff.mpr ⟨this, rfl⟩)⟩
        refine ⟨{ bej with weight := { bej.weight with region_edge := some j2 } }, ?_, rfl⟩
        show (modifyIdx bgj.edges bi2 _)[bi2]? = _
        rw [getElem?_modifyIdx, if_pos rfl, hbej]
        rfl
      · have hj2lt : j2 < j := by omega
        obtain ⟨be, hbe, hre⟩ := hdone j2 e2 bi2 hj2lt hje2 hbe2
        have hne : bi ≠ bi2 := by
          have hjlen : j < rgEdges.length := (List.getElem?_eq_some_iff.mp hej).1
          have hj2len : j2 < rgEdges.length := (List.getElem?_eq_some_iff.mp hje2).1
          have hblt := List.pairwise_iff_getElem.mp hlt j2 j hj2len hjlen hj2lt
          have hg1 : rgEdges[j2] = e2 := (List.getElem?_eq_some_iff.mp hje2).2
          have hg2 : rgEdges[j] = e := (List.getElem?_eq_some_iff.mp hej).2
          rw [hg1, hg2] at hblt
          have := hblt bi2 bi hbe2 hbe_some
          omega
        refine ⟨be, ?_, hre⟩
        show (modifyIdx bgj.edges bi _)[bi2]? = _
        rw [getElem?_modifyIdx, if_neg hne]
        exact hbe
    have hfin := ih (j + 1) _ bg2 hdrop2 hsame2 hdone2 h2
    refine ⟨hfin.1, ?_⟩
    intro j2 e2 bi2 hj2 hje2 hbe2
    exact hfin.2 j2 e2 bi2 (by simp at hj2 ⊢; omega) hje2 hbe2

/-- Joint analysis of the three passes of `gen_dual_graph`'s assembly:
region-node count, untouched border-node `regions` lists, the centroid
property of every region node, and the full duality wiring of every
region edge. -/
theorem genDualGraphCore_analysis (d : DCEL) (fuel : Nat) (rg : RegionGraph)
    (bg : BorderGraph) (h : genDualGraphCore d fuel = some (rg, bg)) :
    rg.nodes.length = d.faces.length - 1 ∧
      (∀ n ∈ bg.nodes, n.regions = []) ∧
      (∀ r ∈ rg.nodes, RegionOK bg r) ∧
      ∀ (j : Nat) (e : GEdge RegionEdge), rg.edges[j]? = some e →
        ∃ bi be, e.weight.border_edge = some bi ∧ bg.edges[bi]? = some be ∧
          be.weight.regions = [e.source, e.target] ∧
          be.weight.region_edge = some j := by
  unfold genDualGraphCore at h
  obtain ⟨⟨rg0, bg0⟩, hA, h⟩ := Option.bind_eq_some.mp h
  obtain ⟨rg2, hB, h⟩ := Option.bind_eq_some.mp h
  obtain ⟨bg2, hC, h⟩ := Option.bind_eq_some.mp h
  obtain ⟨he1, he2⟩ : rg2 = rg ∧ bg2 = bg := by simpa using h
  subst he1
  subst he2
  obtain ⟨hAlen, hAedges, hAdp, hAre, hArok⟩ := passA_spec d fuel rg0 bg0 hA
  obtain ⟨hBnodes, hBfrom, hBlt⟩ :=
    passBList_spec bg0.edges bg0.edges 0 rg0 rg2 (List.drop_zero _)
      (by rw [hAedges]; intro e he; exact absurd he (by simp))
      (by rw [hAedges]; exact List.Pairwise.nil) hB
  have hfromIdx : ∀ (j : Nat) (e : GEdge RegionEdge), rg2.edges[j]? = some e →
      ∃ bi, edgeFrom bg0.edges bi e := by
    intro j e hje
    obtain ⟨bi, _, hef⟩ := hBfrom e (List.mem_iff_getElem?.mpr ⟨j, hje⟩)
    exact ⟨bi, hef⟩
  obtain ⟨hCsame, hCdone⟩ :=
    passCList_spec bg0 rg2.edges hAdp hfromIdx hBlt rg2.edges 0 bg0 bg2
      (List.drop_zero _) ⟨rfl, rfl, fun k => rfl⟩
      (by intro j2 e bi hj2 hje hbe; exact absurd hj2 (by omega)) hC
  refine ⟨?_, ?_, ?_, ?_⟩
  · rw [hBnodes, hAlen]
  · intro n hn
    rw [hCsame.1] at hn
    exact hAre n hn
  · intro r hr
    rw [hBnodes] at hr
    obtain ⟨h1, h2, h3⟩ := hArok r hr
    refine ⟨h1, ?_, ?_⟩
    · intro b hb
      obtain ⟨nn, hnn⟩ := h2 b hb
      exact ⟨nn, by rw [hCsame.1]; exact hnn⟩
    · rw [h3, posSum_nodes_eq bg0 bg2 r.borders hCsame.1]
  · intro j e hje
    obtain ⟨bi, hbe_some, be0, hbi0, hbord, hreg⟩ := hfromIdx j e hje
    have hjlt : j < rg2.edges.length := (List.getElem?_eq_some_iff.mp hje).1
    obtain ⟨be, hbe, hre⟩ := hCdone j e bi (by simpa using hjlt) hje hbe_some
    have herd : edgeERD be = edgeERD be0 := by
      have h4 := hCsame.2.2 bi
      rw [hbe, hbi0] at h4
      simpa using h4
    refine ⟨bi, be, hbe_some, hbe, ?_, hre⟩
    have hregs : be.weight.regions = be0.weight.regions :=
      congrArg (fun t => t.2.2) herd
    rw [hregs, hreg]

/-- C1: for every region edge `r` of the pair of graphs built by
`gen_dual_graph`, `r.border_edge` is `Some(b)` for a border edge `b` whose
`regions` list is exactly the pair of `r`'s endpoints, and whose
`region_edge` points back at `r` (duality round-trip). -/
theorem genDualGraph_duality (d : DCEL) (fuel : Nat) (rg : RegionGraph)
    (bg : BorderGraph) (h : genDualGraphCore d fuel = some (rg, bg)) :
    ∀ (j : Nat) (e : GEdge RegionEdge), rg.edges[j]? = some e →
      ∃ bi be, e.weight.border_edge = some bi ∧ bg.edges[bi]? = some be ∧
        be.weight.regions = [e.source, e.target] ∧
        be.weight.region_edge = some j :=
  (genDualGraphCore_analysis d fuel rg bg h).2.2.2

/-- Witness for C1 on the two-triangle DCEL: its single region edge
back-references border edge 2, whose `regions` are the edge's endpoints
and whose `region_edge` is `some 0`. -/
theorem genDualGraph_duality_witness :
    genDualGraphCore dTwoTri 20 = some (rgTwoTriLit, bgTwoTriLit) ∧
      ∃ bi be,
        (⟨0, 1, ⟨some 2, [1, 2]⟩⟩ : GEdge RegionEdge).weight.border_edge = some bi ∧
        bgTwoTriLit.edges[bi]? = some be ∧ be.weight.regions = [0, 1] ∧
        be.weight.region_edge = some 0 := by
  constructor
  · with_unfolding_all rfl
  · exact genDualGraph_duality dTwoTri 20 rgTwoTriLit bgTwoTriLit
      (by with_unfolding_all rfl) 0 ⟨0, 1, ⟨some 2, [1, 2]⟩⟩ rfl

/-- C2 (code bug): the built border graph's node `regions` lists are all
empty — `gen_dual_graph` only ever pushes region indices into border
EDGE `regions` lists, never into `BorderNode::regions`, so the claimed
incidence biconditional fails whenever some region has a border. -/
theorem borderNode_regions_empty (d : DCEL) (fuel : Nat) (rg : RegionGraph)
    (bg : BorderGraph) (h : genDualGraphCore d fuel = some (rg, bg)) :
    ∀ n ∈ bg.nodes, n.regions = [] :=
  (genDualGraphCore_analysis d fuel rg bg h).2.1

/-- Witness for C2 on the one-triangle DCEL: region 0's `borders` list is
`[0, 2, 1]`, yet border node 0's `regions` list is empty. -/
theorem borderNode_regions_empty_witness :
    genDualGraphCore dTri 20 = some (rgTriLit, bgTriLit) ∧
      (rgTriLit.nodes.getD 0 default).borders = [0, 2, 1] ∧
      (⟨[], ⟨1, 0⟩⟩ : BorderNode).regions = [] := by
  refine ⟨by with_unfolding_all rfl, rfl, ?_⟩
  exact borderNode_regions_empty dTri 20 rgTriLit bgTriLit
    (by with_unfolding_all rfl) ⟨[], ⟨1, 0⟩⟩ (List.mem_cons_self _ _)

/-- C3: every region node built by `gen_dual_graph` has a non-empty
`borders` list of valid border-node indices, and its `pos` is exactly the
arithmetic mean of those border nodes' positions (exact equality in the
rational model, hence within the claim's `1e-3` tolerance). -/
theorem region_pos_is_border_mean (d : DCEL) (fuel : Nat) (rg : RegionGraph)
    (bg : BorderGraph) (h : genDualGraphCore d fuel = some (rg, bg)) :
    ∀ r ∈ rg.nodes, r.borders ≠ [] ∧
      (∀ b ∈ r.borders, ∃ n, bg.nodes[b]? = some n) ∧
      r.pos = (posSum bg r.borders).divN r.borders.length :=
  (genDualGraphCore_analysis d fuel rg bg h).2.2.1

/-- Witness for C3 on the one-triangle DCEL: region 0's position
`(1/3, 1/3)` is the mean of border nodes `0, 2, 1`. -/
theorem region_pos_is_border_mean_witness :
    genDualGraphCore dTri 20 = some (rgTriLit, bgTriLit) ∧
      [0, 2, 1] ≠ ([] : List Nat) ∧
      (⟨1/3, 1/3⟩ : Pt) = (posSum bgTriLit [0, 2, 1]).divN 3 := by
  refine ⟨by with_unfolding_all rfl, ?_, ?_⟩
  · exact (region_pos_is_border_mean dTri 20 rgTriLit bgTriLit
      (by with_unfolding_all rfl) ⟨[0, 2, 1], ⟨1/3, 1/3⟩⟩ (List.mem_cons_self _ _)).1
  · exact (region_pos_is_border_mean dTri 20 rgTriLit bgTriLit
      (by with_unfolding_all rfl) ⟨[0, 2, 1], ⟨1/3, 1/3⟩⟩ (List.mem_cons_self _ _)).2.2

/-- C10: for a DCEL with at least one face, `gen_dual_graph` allocates
exactly one region node per bounded face — `faces.len() - 1` region nodes,
created in face order by the pass-A loop. -/
theorem region_node_count (d : DCEL) (fuel : Nat) (rg : RegionGraph)
    (bg : BorderGraph) (h : genDualGraphCore d fuel = some (rg, bg))
    (hf : 1 ≤ d.faces.length) : rg.nodes.length = d.faces.length - 1 :=
  (genDualGraphCore_analysis d fuel rg bg h).1

/-- Witness for C10 on the one-triangle DCEL: two faces, one region
node. -/
theorem region_node_count_witness :
    genDualGraphCore dTri 20 = some (rgTriLit, bgTriLit) ∧
      1 ≤ dTri.faces.length ∧
      rgTriLit.nodes.length = dTri.faces.length - 1 := by
  refine ⟨by with_unfolding_all rfl, by simp [dTri], ?_⟩
  exact region_node_count dTri 20 rgTriLit bgTriLit
    (by with_unfolding_all rfl) (by simp [dTri])

/-! ## C9 counterexample: the nudged point can leave the domain -/

/-- C9 counterexample: sampling two points in `(1, 1)` from draws
`(1/10, 1999/2000)` then `(1/2, 2499/2500)` (all in `[0, 1)`), the top two
`y` values differ by `1/10000 < epsilon`, so the last point is nudged to
`y = 5003/5000 ≥ 1 = bounds.y` — a returned point outside
`[0, bounds.x) × [0, bounds.y)`. -/
theorem genPoints_nudge_escapes_bounds :
    genPoints 2 ⟨1, 1⟩ nudgeRng 5 =
        some [⟨1/10, 1999/2000⟩, ⟨1/2, 5003/5000⟩] ∧
      ¬ ((5003 : ℚ)/5000 < 1) :=
  ⟨by with_unfolding_all rfl, by norm_num⟩

end Worldgen
